import Mathlib

/-!
# Verification of the primary-columns side-panel controller

This file gives a shallow embedding of
`packages/ag-grid-enterprise/src/sideBar/providedPanels/columns/panels/primaryColsPanel/primaryColsListPanel.ts`
and proves properties of its rebuild, filter, visibility, expansion and
selection logic.

Conventions of the embedding:
* The column tree (`OriginalColumnGroupChild[]`) becomes the inductive type
  `ColNode`; a runtime `instanceof OriginalColumnGroup` check becomes a
  constructor match.  `getOriginalParent()` is represented by the position of
  a node inside the tree (a traversal knows whether it entered a group).
* The JS object `this.columnComps` (id → component) becomes an association
  list `Registry` with JS-object semantics: assignment is `upsert` (replace
  in place, else append) and reading is `alookup` (at most one entry per key
  can ever exist in a JS object, so first-match lookup is faithful).
* Component instances (`ToolPanelColumnGroupComp` / `ToolPanelColumnComp`)
  are not part of the excerpt; their state is modelled from the spec as the
  record `ColumnItem` (see `mkGroupComp` / `mkColumnComp`).
* `console.warn` payloads are returned as data instead of printed.
-/

/-- `colDef.suppressToolPanel` for a column (`ColDef`). -/
structure ColDef where
  suppressToolPanel : Bool
  deriving Repr, DecidableEq

/-- `colGroupDef.suppressToolPanel` for a column group (`ColGroupDef`). -/
structure ColGroupDef where
  suppressToolPanel : Bool
  deriving Repr, DecidableEq

/-- A node of the primary column tree (`OriginalColumnGroupChild`):
either a `Column` or an `OriginalColumnGroup`.  Each node carries its id
(`getId()`), its optional definition (`getColDef()` / `getColGroupDef()`),
and the display name its component would report (`comp.getDisplayName()`).
Groups additionally carry the `isPadding()` flag and their children. -/
inductive ColNode where
  | col (id : String) (colDef : Option ColDef) (displayName : Option String)
  | group (id : String) (colGroupDef : Option ColGroupDef) (padding : Bool)
      (displayName : Option String) (children : List ColNode)

/-- `node.getId()`. -/
def nodeId : ColNode → String
  | .col id _ _ => id
  | .group id _ _ _ _ => id

/-- `child instanceof OriginalColumnGroup`. -/
def nodeIsGroup : ColNode → Bool
  | .col _ _ _ => false
  | .group _ _ _ _ _ => true

/-- `isPadding()` (always false for plain columns). -/
def nodePadding : ColNode → Bool
  | .col _ _ _ => false
  | .group _ _ pad _ _ => pad

/-- The JS truthiness test `def && def.suppressToolPanel` used on both
columns and groups before a component is created. -/
def defSuppressed : Option ColDef → Bool
  | some d => d.suppressToolPanel
  | none => false

/-- Same truthiness test for group definitions. -/
def groupDefSuppressed : Option ColGroupDef → Bool
  | some d => d.suppressToolPanel
  | none => false

/-- Whether a node is suppressed for the tool panel by its own definition. -/
def nodeSuppressed : ColNode → Bool
  | .col _ cd _ => defSuppressed cd
  | .group _ gd _ _ _ => groupDefSuppressed gd

mutual

/-- All ids of a node and its descendants, in pre-order. -/
def nodeIds : ColNode → List String
  | .col id _ _ => [id]
  | .group id _ _ _ cs => id :: treeIds cs

/-- All ids of a forest, in pre-order. -/
def treeIds : List ColNode → List String
  | [] => []
  | n :: ns => nodeIds n ++ treeIds ns

end

/-- Whether one character list is a prefix of another. -/
def isPrefixOfChars : List Char → List Char → Bool
  | [], _ => true
  | _ :: _, [] => false
  | a :: as, b :: bs => a == b && isPrefixOfChars as bs

/-- Whether `needle` occurs contiguously inside `hay`. -/
def charsContainSub (needle : List Char) : List Char → Bool
  | [] => isPrefixOfChars needle []
  | b :: bs => isPrefixOfChars needle (b :: bs) || charsContainSub needle bs

/-- JS substring test `hay.indexOf(needle) >= 0`. -/
def strContains (hay needle : String) : Bool :=
  charsContainSub needle.data hay.data

/-- ASCII lower-casing of one character, as `String.prototype.toLowerCase`
performs on the ASCII range relevant to this code. -/
def charToLower (c : Char) : Char :=
  if 65 ≤ c.toNat ∧ c.toNat ≤ 90 then Char.ofNat (c.toNat + 32) else c

/-- JS `s.toLowerCase()`. -/
def jsToLower (s : String) : String :=
  String.mk (s.data.map charToLower)

/-- Modelled from the spec: the state of one tool-panel item
(`ToolPanelColumnGroupComp` / `ToolPanelColumnComp`, whose classes are not
part of the excerpt).  Per the spec an item exposes: whether it is a group,
its display-name lookup (`getDisplayName()`), `isExpandable()`, and the
gettable/settable expanded and displayed flags.  Purely presentational
constructor arguments (`dept`, `allowDragging`, `groupsExist`, the
expansion callback) are not part of the modelled state. -/
structure ColumnItem where
  isGroup : Bool
  displayName : Option String
  isExpandable : Bool
  expanded : Bool
  displayed : Bool
  deriving Repr, DecidableEq

/-- `comp.setDisplayed(v)` applied to an item's state. -/
def setDisp (c : ColumnItem) (v : Bool) : ColumnItem :=
  { c with displayed := v }

/-- Modelled from the spec: constructing a `ToolPanelColumnGroupComp`.
"expandable? (groups only, and only if they contain a displayable child)":
we take a child to be displayable when it is not suppressed for the panel.
The initial expansion flag is the `expandByDefault` constructor argument
(the panel's "expand groups by default" configuration). -/
def mkGroupComp (displayName : Option String) (children : List ColNode)
    (expandByDefault : Bool) : ColumnItem :=
  { isGroup := true
    displayName := displayName
    isExpandable := children.any (fun c => !nodeSuppressed c)
    expanded := expandByDefault
    displayed := false }

/-- Modelled from the spec: constructing a `ToolPanelColumnComp` for a plain
column.  Columns are never expandable. -/
def mkColumnComp (displayName : Option String) : ColumnItem :=
  { isGroup := false
    displayName := displayName
    isExpandable := false
    expanded := false
    displayed := false }

/-- The item registry `this.columnComps`, a JS object keyed by node id. -/
abbrev Registry := List (String × ColumnItem)

/-- The filter result map `{ [id: string]: boolean }`. -/
abbrev FilterMap := List (String × Bool)

/-- JS object read `m[k]`: at most one entry per key ever exists, so
first-match lookup is faithful. -/
def alookup {α : Type} : List (String × α) → String → Option α
  | [], _ => none
  | e :: es, k => if e.1 = k then some e.2 else alookup es k

/-- JS object write `m[k] = v`: overwrite the existing entry in place,
else append a new one. -/
def upsert {α : Type} : List (String × α) → String → α → List (String × α)
  | [], k, v => [(k, v)]
  | e :: es, k, v => if e.1 = k then (k, v) :: es else e :: upsert es k v

/-- Number of entries a map holds for a key (used to state "exactly one
entry" / "no entry"). -/
def countKey {α : Type} (m : List (String × α)) (k : String) : Nat :=
  (m.filter (fun e => decide (e.1 = k))).length

/-- `comp.setDisplayed(v)` seen as an update of the registry at a key
(a no-op when the key has no entry, mirroring the `if (comp)` guard). -/
def writeDisplayed (reg : Registry) (k : String) (v : Bool) : Registry :=
  reg.map (fun e => if e.1 = k then (e.1, setDisp e.2 v) else e)

/-- The panel configuration recognised at `init`
(`ToolPanelColumnCompParams`). -/
structure ToolPanelColumnCompParams where
  syncLayoutWithGrid : Bool
  contractColumnSelection : Bool
  deriving Repr, DecidableEq

/-- The mutable state of `PrimaryColsListPanel` that the verified operations
touch: `this.columnTree`, `this.columnComps`, `this.filterText` and
`this.expandGroupsByDefault`. -/
structure PanelState where
  columnTree : List ColNode
  columnComps : Registry
  filterText : Option String
  expandGroupsByDefault : Bool

/-- `_.exists(value)` of ag-grid on a possibly-null string: false for
`null`/`undefined` and for the empty string. -/
def jsExists : Option String → Bool
  | none => false
  | some s => s ≠ ""

mutual

/-- Body of `recursivelyAddComps`' `forEach`: dispatch on the runtime type
of the child (`OriginalColumnGroup` vs `Column`). -/
def addComp (expandGroupsByDefault : Bool) (reg : Registry) (dept : Nat)
    (groupsExist : Bool) : ColNode → Registry
  | .col id cd nm =>
      -- `addColumnComps`: skip when `column.getColDef() && ….suppressToolPanel`.
      if defSuppressed cd then reg
      else upsert reg id (mkColumnComp nm)
  | .group id gd padding nm children =>
      -- `recursivelyAddGroupComps`: skip the whole call (children included)
      -- when `columnGroup.getColGroupDef() && ….suppressToolPanel`.
      if groupDefSuppressed gd then reg
      else if !padding then
        -- materialise the group comp, then visit children one level deeper
        recursivelyAddComps expandGroupsByDefault
          (upsert reg id (mkGroupComp nm children expandGroupsByDefault))
          (dept + 1) groupsExist children
      else
        -- padding group: no comp, children stay at the same dept
        recursivelyAddComps expandGroupsByDefault reg dept groupsExist children

/-- `recursivelyAddComps(tree, dept, groupsExist)`, threading the mutated
`this.columnComps` object. -/
def recursivelyAddComps (expandGroupsByDefault : Bool) (reg : Registry)
    (dept : Nat) (groupsExist : Bool) : List ColNode → Registry
  | [] => reg
  | child :: rest =>
      recursivelyAddComps expandGroupsByDefault
        (addComp expandGroupsByDefault reg dept groupsExist child)
        dept groupsExist rest

end

/-- The `else` leg of `createFilterResults`'s per-item check: either the
substring test against the component's lower-cased display name, or the
"dummy column group" fallback `!!(item instanceof OriginalColumnGroup &&
item.getOriginalParent())`.  `hasParent` says whether the item has an
original parent (i.e. the traversal is inside a group). -/
def itemFilterFallback (reg : Registry) (filterText : String)
    (hasParent : Bool) (item : ColNode) : Bool :=
  match alookup reg (nodeId item) with
  | some comp =>
      if filterText ≠ "" then
        match comp.displayName with
        | some dn => strContains (jsToLower dn) filterText
        | none => true
      else nodeIsGroup item && hasParent
  | none => nodeIsGroup item && hasParent

mutual

/-- One iteration of `recursivelyCheckFilter`'s `forEach`: compute
`atLeastOneChildPassed`, then `filterPasses`, record it in the result map
and report it. -/
def checkFilterItem (reg : Registry) (filterText : String) (hasParent : Bool)
    (acc : FilterMap) : ColNode → FilterMap × Bool
  | .col id cd nm =>
      let passes := itemFilterFallback reg filterText hasParent (.col id cd nm)
      (upsert acc id passes, passes)
  | .group id gd pad nm children =>
      let r := recursivelyCheckFilter reg filterText true acc children
      let passes :=
        if r.2 then true
        else itemFilterFallback reg filterText hasParent (.group id gd pad nm children)
      (upsert r.1 id passes, passes)

/-- `recursivelyCheckFilter(items)`: depth-first post-order filter pass,
returning the threaded result map and `atLeastOneThisLevelPassed`. -/
def recursivelyCheckFilter (reg : Registry) (filterText : String)
    (hasParent : Bool) (acc : FilterMap) : List ColNode → FilterMap × Bool
  | [] => (acc, false)
  | item :: rest =>
      let r₁ := checkFilterItem reg filterText hasParent acc item
      let r₂ := recursivelyCheckFilter reg filterText hasParent r₁.1 rest
      (r₂.1, r₁.2 || r₂.2)

end

/-- `createFilterResults()`: run the post-order check over the whole column
tree (top-level items have no original parent). -/
def createFilterResults (reg : Registry) (tree : List ColNode)
    (filterText : String) : FilterMap :=
  (recursivelyCheckFilter reg filterText false [] tree).1

/-- `filterResults ? filterResults[id] : true` followed by the `&&` with
the parent-open flag: a missing entry (JS `undefined`) acts as `false`. -/
def passesOf (fr : Option FilterMap) (id : String) : Bool :=
  match fr with
  | none => true
  | some m => ((alookup m id).getD false)

mutual

/-- Body of `recursivelySetVisibility`'s `forEach` for one child. -/
def setVisibilityItem (reg : Registry) (parentGroupsOpen : Bool)
    (filterResults : Option FilterMap) : ColNode → Registry
  | .col id _ _ =>
      (match alookup reg id with
       | some _ => writeDisplayed reg id (parentGroupsOpen && passesOf filterResults id)
       | none => reg)
  | .group id _ _ _ children =>
      let comp := alookup reg id
      let reg₁ :=
        match comp with
        | some _ => writeDisplayed reg id (parentGroupsOpen && passesOf filterResults id)
        | none => reg
      -- `childrenOpen = comp ? (parentGroupsOpen ? comp.isExpanded() : false)
      --                      : parentGroupsOpen`
      let childrenOpen :=
        match comp with
        | some c => parentGroupsOpen && c.expanded
        | none => parentGroupsOpen
      recursivelySetVisibility reg₁ childrenOpen filterResults children

/-- `recursivelySetVisibility(columnTree, parentGroupsOpen, filterResults)`,
threading the mutated comps. -/
def recursivelySetVisibility (reg : Registry) (parentGroupsOpen : Bool)
    (filterResults : Option FilterMap) : List ColNode → Registry
  | [] => reg
  | child :: rest =>
      recursivelySetVisibility
        (setVisibilityItem reg parentGroupsOpen filterResults child)
        parentGroupsOpen filterResults rest

end

/-- The filter-result map `updateVisibilityOfRows` passes on:
`_.exists(this.filterText) ? this.createFilterResults() : null`. -/
def panelFilterResults (s : PanelState) : Option FilterMap :=
  match s.filterText with
  | some ft => if ft ≠ "" then some (createFilterResults s.columnComps s.columnTree ft) else none
  | none => none

/-- `updateVisibilityOfRows()`: depth-first filter pass, then breadth-first
visibility pass starting with `parentGroupsOpen = true`. -/
def updateVisibilityOfRows (s : PanelState) : PanelState :=
  { s with columnComps :=
      recursivelySetVisibility s.columnComps true (panelFilterResults s) s.columnTree }

/-- `setFilterText(filterText)`: normalise to lower case (empty or null
disables filtering), then recompute visibility. -/
def setFilterText (s : PanelState) (filterText : Option String) : PanelState :=
  updateVisibilityOfRows
    { s with filterText := if jsExists filterText then (filterText.map jsToLower) else none }

/-- `onColumnsChanged()`: destroy all comps, re-read the tree and the
"groups exist" flag from the column model (supplied here as arguments, the
column controller being an external collaborator), rebuild the comps and
recompute visibility. -/
def onColumnsChanged (s : PanelState) (newTree : List ColNode)
    (groupsExist : Bool) : PanelState :=
  updateVisibilityOfRows
    { s with
        columnTree := newTree
        columnComps := recursivelyAddComps s.expandGroupsByDefault [] 0 groupsExist newTree }

/-- `init(params, allowDragging)`: record
`expandGroupsByDefault = !params.contractColumnSelection` and, if the
column controller is ready, run the first build.  Event subscription is an
external side effect and is not modelled. -/
def init (params : ToolPanelColumnCompParams) (ready : Bool)
    (tree : List ColNode) (groupsExist : Bool) : PanelState :=
  let s : PanelState :=
    { columnTree := []
      columnComps := []
      filterText := none
      expandGroupsByDefault := !params.contractColumnSelection }
  if ready then onColumnsChanged s tree groupsExist else s

/-- `doSetExpandedAll(value)`: set every expandable item's expansion flag. -/
def doSetExpandedAll (reg : Registry) (value : Bool) : Registry :=
  reg.map (fun e => if e.2.isExpandable then (e.1, { e.2 with expanded := value }) else e)

/-- `setGroupsExpanded(expand, groupIds)`.  The returned list is the
`unrecognisedGroupIds` payload of the non-fatal `console.warn` (empty when
nothing is warned about). -/
def setGroupsExpanded (reg : Registry) (expand : Bool)
    (groupIds : Option (List String)) : Registry × List String :=
  match groupIds with
  | none => (doSetExpandedAll reg expand, [])
  | some ids =>
      let expandedGroupIds :=
        reg.filterMap (fun e =>
          if e.2.isExpandable && ids.contains e.1 then some e.1 else none)
      let reg' :=
        reg.map (fun e =>
          if e.2.isExpandable && ids.contains e.1 then (e.1, { e.2 with expanded := expand }) else e)
      (reg', ids.filter (fun gid => !expandedGroupIds.contains gid))

/-- An observable effect of `doSetSelectedAll`: either one item's
`onSelectAllChanged(checked)` notification, or the single bulk
`columnApi.setColumnsVisible(primaryCols, checked)` call. -/
inductive SelectAction where
  | itemNotify (id : String) (checked : Bool)
  | bulkSetVisible (cols : List String) (checked : Bool)
  deriving Repr, DecidableEq

/-- `doSetSelectedAll(checked)`: in pivot mode notify every registered item
individually; otherwise issue one bulk set-visible call for the primary
columns.  Pivot mode and the primary column list come from the external
`columnApi`. -/
def doSetSelectedAll (reg : Registry) (pivotMode : Bool)
    (primaryCols : List String) (checked : Bool) : List SelectAction :=
  if pivotMode then
    reg.map (fun e => SelectAction.itemNotify e.1 checked)
  else
    [SelectAction.bulkSetVisible primaryCols checked]

/-- The `SELECTED_STATE` enum of the header panel, the payload of the
`groupExpanded` event. -/
inductive SELECTED_STATE where
  | CHECKED
  | UNCHECKED
  | INDETERMINATE
  deriving Repr, DecidableEq

mutual

/-- One step of `fireExpandedEvent`'s counting walk: a group with a
registered comp bumps `expandedCount` or `notExpandedCount`, then its
children are visited; a plain column contributes nothing. -/
def countExpandedItem (reg : Registry) : ColNode → Nat × Nat → Nat × Nat
  | .col _ _ _, acc => acc
  | .group id _ _ _ children, acc =>
      let acc₀ :=
        match alookup reg id with
        | some comp => if comp.expanded then (acc.1 + 1, acc.2) else (acc.1, acc.2 + 1)
        | none => acc
      countExpanded reg children acc₀

/-- The counting walk of `fireExpandedEvent`: `(expandedCount,
notExpandedCount)` accumulated over the whole tree, counting only groups
that have a registered comp. -/
def countExpanded (reg : Registry) : List ColNode → Nat × Nat → Nat × Nat
  | [], acc => acc
  | item :: rest, acc => countExpanded reg rest (countExpandedItem reg item acc)

end

/-- `fireExpandedEvent()`: walk the tree, then classify the counts.  The
returned value is the `state` carried by the dispatched `groupExpanded`
event. -/
def fireExpandedEvent (reg : Registry) (tree : List ColNode) : SELECTED_STATE :=
  let c := countExpanded reg tree (0, 0)
  if 0 < c.1 ∧ 0 < c.2 then SELECTED_STATE.INDETERMINATE
  else if 0 < c.2 then SELECTED_STATE.UNCHECKED
  else SELECTED_STATE.CHECKED

/-- `onGroupExpanded()`: recompute visibility, then fire the aggregate
expansion event. -/
def onGroupExpanded (s : PanelState) : PanelState × SELECTED_STATE :=
  let s' := updateVisibilityOfRows s
  (s', fireExpandedEvent s'.columnComps s'.columnTree)

/-!
## Specification-side (pure) descriptions of the traversals

The imperative passes above thread a mutated registry / result map.  The
following pure functions describe the same computations; correspondence
lemmas below connect the two.
-/

/-- Last value a write sequence assigns to a key (JS: later assignments to
the same object key win). -/
def lastVal (ws : List (String × Bool)) (k : String) : Option Bool :=
  ws.foldl (fun acc e => if e.1 = k then some e.2 else acc) none

/-- Apply a sequence of `setDisplayed` writes to a registry in order. -/
def applyWrites (reg : Registry) (ws : List (String × Bool)) : Registry :=
  ws.foldl (fun r e => writeDisplayed r e.1 e.2) reg

/-- Forget an entry's `displayed` flag (the only field the visibility pass
mutates). -/
def entryStrip (e : String × ColumnItem) : String × ColumnItem :=
  (e.1, setDisp e.2 false)

/-- Two registries agreeing on everything except `displayed` flags. -/
def eqMod (r₁ r₂ : Registry) : Prop :=
  r₁.map entryStrip = r₂.map entryStrip

/-- The contribution of a (possibly missing) comp to the children's
"ancestors open" flag: an existing comp contributes its expansion flag, a
missing comp is transparent. -/
def expandedIn (reg : Registry) (k : String) : Bool :=
  match alookup reg k with
  | some c => c.expanded
  | none => true

mutual

/-- The `setDisplayed` writes the visibility pass issues while visiting one
node with "ancestors open" flag `p`, as (key, value) pairs in order. -/
def visWritesNode (reg : Registry) (fr : Option FilterMap) (p : Bool) :
    ColNode → List (String × Bool)
  | .col id _ _ => [(id, p && passesOf fr id)]
  | .group id _ _ _ cs =>
      (id, p && passesOf fr id) :: visWritesList reg fr (p && expandedIn reg id) cs

/-- The writes issued while visiting a forest. -/
def visWritesList (reg : Registry) (fr : Option FilterMap) (p : Bool) :
    List ColNode → List (String × Bool)
  | [] => []
  | n :: ns => visWritesNode reg fr p n ++ visWritesList reg fr p ns

end

/-- The "ancestors open" flag a node with ancestor chain `anc` (outermost
first) receives when the pass starts with flag `p`: ancestors with a comp
contribute their expansion flag, itemless ancestors are transparent. -/
def openOf (reg : Registry) (p : Bool) (anc : List ColNode) : Bool :=
  p && anc.all (fun g => expandedIn reg (nodeId g))

/-- `TreePath t anc n`: node `n` occurs in forest `t` below the chain of
group ancestors `anc` (outermost ancestor first; `anc = []` means `n` is a
top-level item). -/
inductive TreePath : List ColNode → List ColNode → ColNode → Prop where
  | top {t : List ColNode} {n : ColNode} : n ∈ t → TreePath t [] n
  | down {t anc : List ColNode} {n : ColNode} {id : String}
      {gd : Option ColGroupDef} {pad : Bool} {nm : Option String}
      {cs : List ColNode} :
      ColNode.group id gd pad nm cs ∈ t → TreePath cs anc n →
      TreePath t (ColNode.group id gd pad nm cs :: anc) n

/-- The `hasParent` flag seen by a node with ancestor chain `anc` in a
traversal whose top level was entered with flag `hp`. -/
def hpOf (hp : Bool) (anc : List ColNode) : Bool :=
  match anc with
  | [] => hp
  | _ :: _ => true

mutual

/-- Pure form of the per-node filter rule: a node passes if some child
passes, otherwise `itemFilterFallback` decides. -/
def filterPassNode (reg : Registry) (ft : String) (hasParent : Bool) :
    ColNode → Bool
  | .col id cd nm => itemFilterFallback reg ft hasParent (.col id cd nm)
  | .group id gd pad nm cs =>
      if filterPassList reg ft true cs then true
      else itemFilterFallback reg ft hasParent (.group id gd pad nm cs)

/-- Whether at least one node of the forest passes (children of a group
always have a parent). -/
def filterPassList (reg : Registry) (ft : String) (hasParent : Bool) :
    List ColNode → Bool
  | [] => false
  | n :: ns => filterPassNode reg ft hasParent n || filterPassList reg ft hasParent ns

end

mutual

/-- The filter-map entries recorded while checking one node, in the order
`recursivelyCheckFilter` records them (children first, then the node). -/
def filterEntriesNode (reg : Registry) (ft : String) (hasParent : Bool) :
    ColNode → FilterMap
  | .col id cd nm => [(id, filterPassNode reg ft hasParent (.col id cd nm))]
  | .group id gd pad nm cs =>
      filterEntriesList reg ft true cs
        ++ [(id, filterPassNode reg ft hasParent (.group id gd pad nm cs))]

/-- The entries recorded while checking a forest. -/
def filterEntriesList (reg : Registry) (ft : String) (hasParent : Bool) :
    List ColNode → FilterMap
  | [] => []
  | n :: ns => filterEntriesNode reg ft hasParent n ++ filterEntriesList reg ft hasParent ns

end

mutual

/-- The registry entries a rebuild creates for one node, in creation
order: a suppressed definition cuts off the whole subtree, a padding group
contributes no entry of its own but its children are still visited. -/
def builtEntriesNode (expandGroupsByDefault : Bool) : ColNode → Registry
  | .col id cd nm =>
      if defSuppressed cd then [] else [(id, mkColumnComp nm)]
  | .group id gd pad nm cs =>
      if groupDefSuppressed gd then []
      else if !pad then
        (id, mkGroupComp nm cs expandGroupsByDefault) :: builtEntriesList expandGroupsByDefault cs
      else builtEntriesList expandGroupsByDefault cs

/-- The registry entries a rebuild creates for a forest. -/
def builtEntriesList (expandGroupsByDefault : Bool) : List ColNode → Registry
  | [] => []
  | n :: ns =>
      builtEntriesNode expandGroupsByDefault n ++ builtEntriesList expandGroupsByDefault ns

end

example : strContains "revenue" "ven" = true := by decide
example : strContains "cost" "rev" = false := by decide
example : treeIds [ColNode.group "g" none false (some "G") [ColNode.col "c" none none]] = ["g", "c"] := rfl


/-!
## Concrete instances used by the witnesses and counterexamples
-/

/-- Leaf of the three-level demonstration tree (spec scenario for C1). -/
def demo1Leaf : ColNode := ColNode.col "leaf" none (some "Leaf")

/-- Collapsed subgroup of the demonstration tree. -/
def demo1Sub : ColNode := ColNode.group "sub" none false (some "Sub") [demo1Leaf]

/-- Root group of the demonstration tree. -/
def demo1Root : ColNode := ColNode.group "root" none false (some "Root") [demo1Sub]

/-- Panel state for the C1 scenario: root expanded, subgroup collapsed,
no filter. -/
def demo1State : PanelState :=
  { columnTree := [demo1Root]
    columnComps :=
      [("root", { isGroup := true, displayName := some "Root", isExpandable := true,
                  expanded := true, displayed := false }),
       ("sub", { isGroup := true, displayName := some "Sub", isExpandable := true,
                 expanded := false, displayed := false }),
       ("leaf", { isGroup := false, displayName := some "Leaf", isExpandable := false,
                  expanded := false, displayed := false })]
    filterText := none
    expandGroupsByDefault := true }

/-- A panel state with empty tree and registry, used as the pre-state of
rebuild scenarios. -/
def demoEmptyState : PanelState :=
  { columnTree := [], columnComps := [], filterText := none,
    expandGroupsByDefault := true }

/-- A column that is not suppressed... sitting under a suppressed group
(C2 scenario). -/
def demo2Col : ColNode := ColNode.col "sc" (some { suppressToolPanel := false }) (some "SC")

/-- A group whose definition suppresses it for the tool panel. -/
def demo2Group : ColNode :=
  ColNode.group "sg" (some { suppressToolPanel := true }) false (some "SG") [demo2Col]

/-- An ordinary (non-suppressed) column for the C2 witness. -/
def demo2bCol : ColNode := ColNode.col "c" none (some "C")

/-- An ordinary group holding `demo2bCol`. -/
def demo2bGroup : ColNode := ColNode.group "g" none false (some "G") [demo2bCol]

/-- Column under a padding group, whose name fails the filter "rev". -/
def demo3Col : ColNode := ColNode.col "c" none (some "Cost")

/-- A padding group with a real parent (C3 scenario). -/
def demo3Pad : ColNode := ColNode.group "pad" none true none [demo3Col]

/-- Real group wrapping the padding group. -/
def demo3Group : ColNode := ColNode.group "g" none false (some "G") [demo3Pad]

/-- The C3 column tree. -/
def demo3Tree : List ColNode := [demo3Group]

/-- The registry a rebuild produces for `demo3Tree`. -/
def demo3Reg : Registry := recursivelyAddComps true [] 0 true demo3Tree

/-- Suppressed group with a non-suppressed child, for the C9 witness. -/
def demo9Col : ColNode := ColNode.col "sc9" none (some "SC9")

/-- The suppressed group of the C9 witness. -/
def demo9Group : ColNode :=
  ColNode.group "sg9" (some { suppressToolPanel := true }) false (some "SG9") [demo9Col]

/-!
## Basic lemmas about the association-list maps
-/

theorem listMapExt {α β : Type} (l : List α) (f g : α → β)
    (h : ∀ a, f a = g a) : l.map f = l.map g := by
  induction l with
  | nil => rfl
  | cons a l ih => simp [List.map, h a, ih]

theorem alookup_append {α : Type} (a b : List (String × α)) (k : String) :
    alookup (a ++ b) k =
      (match alookup a k with
       | some v => some v
       | none => alookup b k) := by
  induction a with
  | nil => simp [alookup]
  | cons e es ih =>
      by_cases h : e.1 = k
      · simp [alookup, h]
      · simp [alookup, h, ih]

theorem alookup_eq_none {α : Type} (a : List (String × α)) (k : String)
    (h : k ∉ a.map Prod.fst) : alookup a k = none := by
  induction a with
  | nil => rfl
  | cons e es ih =>
      simp only [List.map, List.mem_cons] at h
      push_neg at h
      have hne : ¬ e.1 = k := fun hek => h.1 hek.symm
      simp [alookup, hne, ih h.2]

theorem alookup_singleton {α : Type} (k : String) (v : α) :
    alookup [(k, v)] k = some v := by
  simp [alookup]

theorem upsert_eq_append {α : Type} (m : List (String × α)) (k : String) (v : α)
    (h : k ∉ m.map Prod.fst) : upsert m k v = m ++ [(k, v)] := by
  induction m with
  | nil => rfl
  | cons e es ih =>
      simp only [List.map, List.mem_cons] at h
      push_neg at h
      have hne : ¬ e.1 = k := fun hek => h.1 hek.symm
      simp [upsert, hne, ih h.2]

theorem countKey_append {α : Type} (a b : List (String × α)) (k : String) :
    countKey (a ++ b) k = countKey a k + countKey b k := by
  simp [countKey, List.filter_append]

theorem countKey_nil {α : Type} (k : String) : countKey ([] : List (String × α)) k = 0 := rfl

theorem countKey_eq_zero {α : Type} (m : List (String × α)) (k : String)
    (h : k ∉ m.map Prod.fst) : countKey m k = 0 := by
  induction m with
  | nil => rfl
  | cons e es ih =>
      simp only [List.map, List.mem_cons] at h
      push_neg at h
      have hne : ¬ e.1 = k := fun hek => h.1 hek.symm
      simp only [countKey, List.filter_cons]
      simpa [hne, countKey] using ih h.2

theorem countKey_singleton {α : Type} (k : String) (v : α) :
    countKey [(k, v)] k = 1 := by
  simp [countKey, List.filter]

/-!
## Lemmas about `setDisp`, write sequences and `displayed`-stripping
-/

theorem setDisp_displayed (c : ColumnItem) (v : Bool) : (setDisp c v).displayed = v := rfl

theorem setDisp_setDisp (c : ColumnItem) (v w : Bool) :
    setDisp (setDisp c v) w = setDisp c w := rfl

theorem setDisp_self (c : ColumnItem) : setDisp c c.displayed = c := rfl

theorem foldl_lastVal (ws : List (String × Bool)) (init : Option Bool) (k : String) :
    ws.foldl (fun acc e => if e.1 = k then some e.2 else acc) init =
      (match lastVal ws k with
       | some v => some v
       | none => init) := by
  induction ws generalizing init with
  | nil => simp [lastVal]
  | cons e es ih =>
      simp only [lastVal, List.foldl] at *
      rw [ih, ih (if e.1 = k then some e.2 else none)]
      by_cases h : e.1 = k <;> cases hlv : es.foldl (fun acc e => if e.1 = k then some e.2 else acc) none <;>
        simp [h, hlv]

theorem lastVal_append (a b : List (String × Bool)) (k : String) :
    lastVal (a ++ b) k =
      (match lastVal b k with
       | some v => some v
       | none => lastVal a k) := by
  simp only [lastVal, List.foldl_append]
  exact foldl_lastVal b (a.foldl (fun acc e => if e.1 = k then some e.2 else acc) none) k

theorem lastVal_cons (e : String × Bool) (ws : List (String × Bool)) (k : String) :
    lastVal (e :: ws) k =
      (match lastVal ws k with
       | some v => some v
       | none => if e.1 = k then some e.2 else none) := by
  have : e :: ws = [e] ++ ws := rfl
  rw [this, lastVal_append]
  cases hlv : lastVal ws k <;> simp [lastVal]

theorem lastVal_eq_none (ws : List (String × Bool)) (k : String)
    (h : k ∉ ws.map Prod.fst) : lastVal ws k = none := by
  induction ws with
  | nil => rfl
  | cons e es ih =>
      simp only [List.map, List.mem_cons] at h
      push_neg at h
      have hne : ¬ e.1 = k := fun hek => h.1 hek.symm
      rw [lastVal_cons, ih h.2]
      simp [hne]

theorem applyWrites_nil (reg : Registry) : applyWrites reg [] = reg := rfl

theorem applyWrites_cons (reg : Registry) (e : String × Bool) (ws : List (String × Bool)) :
    applyWrites reg (e :: ws) = applyWrites (writeDisplayed reg e.1 e.2) ws := rfl

theorem applyWrites_append (reg : Registry) (a b : List (String × Bool)) :
    applyWrites reg (a ++ b) = applyWrites (applyWrites reg a) b := by
  simp [applyWrites, List.foldl_append]

/-- Normal form of a write sequence: each entry's `displayed` becomes the
last value written to its key (or stays put if the key is never written). -/
theorem applyWrites_eq_map (reg : Registry) (ws : List (String × Bool)) :
    applyWrites reg ws =
      reg.map (fun e => (e.1, setDisp e.2 ((lastVal ws e.1).getD e.2.displayed))) := by
  induction ws generalizing reg with
  | nil =>
      rw [applyWrites_nil]
      have h : ∀ e : String × ColumnItem,
          (e.1, setDisp e.2 ((lastVal [] e.1).getD e.2.displayed)) = e := by
        intro e
        simp [lastVal, setDisp_self]
      calc reg = reg.map id := by simp
        _ = _ := listMapExt reg id _ (fun e => (h e).symm)
  | cons w ws ih =>
      rw [applyWrites_cons, ih]
      unfold writeDisplayed
      rw [List.map_map]
      refine listMapExt reg _ _ ?_
      intro e
      simp only [Function.comp]
      rw [lastVal_cons]
      by_cases hek : e.1 = w.1
      · rw [if_pos hek]
        cases hlv : lastVal ws e.1 with
        | some v => simp [hlv, setDisp_setDisp, setDisp_displayed]
        | none => simp [hlv, setDisp_setDisp, setDisp_displayed, hek.symm]
      · rw [if_neg hek]
        have hwk : ¬ w.1 = e.1 := fun hw => hek hw.symm
        cases hlv : lastVal ws e.1 with
        | some v => simp [hlv]
        | none => simp [hlv, hwk]

theorem alookup_map_keyed (reg : Registry) (g : String → ColumnItem → ColumnItem)
    (k : String) :
    alookup (reg.map (fun e => (e.1, g e.1 e.2))) k = (alookup reg k).map (g k) := by
  induction reg with
  | nil => rfl
  | cons e es ih =>
      by_cases hek : e.1 = k
      · subst hek
        simp [alookup]
      · simp [alookup, hek, ih]

/-- Lookup after a write sequence. -/
theorem alookup_applyWrites (reg : Registry) (ws : List (String × Bool)) (k : String) :
    alookup (applyWrites reg ws) k =
      (alookup reg k).map (fun c => setDisp c ((lastVal ws k).getD c.displayed)) := by
  rw [applyWrites_eq_map]
  exact alookup_map_keyed reg (fun a c => setDisp c ((lastVal ws a).getD c.displayed)) k

/-- Replaying the same write sequence is a no-op. -/
theorem applyWrites_idem (reg : Registry) (ws : List (String × Bool)) :
    applyWrites (applyWrites reg ws) ws = applyWrites reg ws := by
  rw [applyWrites_eq_map, applyWrites_eq_map, List.map_map]
  refine listMapExt reg _ _ ?_
  intro e
  simp only [Function.comp]
  cases hlv : lastVal ws e.1 <;> simp [hlv, setDisp_setDisp, setDisp_displayed]

/-!
## `eqMod`: registries equal up to `displayed` flags
-/

theorem eqMod_refl (reg : Registry) : eqMod reg reg := rfl

theorem eqMod_trans {r₁ r₂ r₃ : Registry} (h₁ : eqMod r₁ r₂) (h₂ : eqMod r₂ r₃) :
    eqMod r₁ r₃ := h₁.trans h₂

theorem eqMod_writeDisplayed (reg : Registry) (k : String) (v : Bool) :
    eqMod reg (writeDisplayed reg k v) := by
  unfold eqMod writeDisplayed
  rw [List.map_map]
  refine listMapExt reg _ _ ?_
  intro e
  by_cases hek : e.1 = k <;> simp [Function.comp, entryStrip, hek, setDisp_setDisp]

theorem eqMod_applyWrites (reg : Registry) (ws : List (String × Bool)) :
    eqMod reg (applyWrites reg ws) := by
  rw [applyWrites_eq_map]
  unfold eqMod
  rw [List.map_map]
  refine listMapExt reg _ _ ?_
  intro e
  simp [Function.comp, entryStrip, setDisp_setDisp]

/-- Under `eqMod`, lookups agree up to the `displayed` flag. -/
theorem eqMod_alookup {r₁ r₂ : Registry} (h : eqMod r₁ r₂) (k : String) :
    (alookup r₁ k).map (fun c => setDisp c false) =
      (alookup r₂ k).map (fun c => setDisp c false) := by
  unfold eqMod at h
  induction r₁ generalizing r₂ with
  | nil =>
      have hmap : List.map entryStrip r₂ = [] := by simpa using h.symm
      have : r₂ = [] := List.map_eq_nil_iff.mp hmap
      subst this
      rfl
  | cons e es ih =>
      cases r₂ with
      | nil => simp at h
      | cons f fs =>
          simp only [List.map] at h
          have h1 : entryStrip e = entryStrip f := (List.cons.injEq _ _ _ _).mp h |>.1
          have h2 : es.map entryStrip = fs.map entryStrip := (List.cons.injEq _ _ _ _).mp h |>.2
          have hk : e.1 = f.1 := by
            have := congrArg Prod.fst h1
            simpa [entryStrip] using this
          have hc : setDisp e.2 false = setDisp f.2 false := by
            have := congrArg Prod.snd h1
            simpa [entryStrip] using this
          by_cases hek : e.1 = k
          · rw [hek] at hk
            simp [alookup, hek, hk.symm, hc]
          · have hfk : ¬ f.1 = k := by rw [← hk]; exact hek
            simp [alookup, hek, hfk, ih h2]

theorem expandedIn_some {reg : Registry} {k : String} {c : ColumnItem}
    (h : alookup reg k = some c) : expandedIn reg k = c.expanded := by
  simp [expandedIn, h]

theorem expandedIn_none {reg : Registry} {k : String}
    (h : alookup reg k = none) : expandedIn reg k = true := by
  simp [expandedIn, h]

theorem eqMod_expandedIn {r₁ r₂ : Registry} (h : eqMod r₁ r₂) (k : String) :
    expandedIn r₁ k = expandedIn r₂ k := by
  have := eqMod_alookup h k
  unfold expandedIn
  cases h₁ : alookup r₁ k <;> cases h₂ : alookup r₂ k <;>
    rw [h₁, h₂] at this <;> simp at this <;> simp [this]
  · have := congrArg ColumnItem.expanded this
    simpa [setDisp] using this

theorem eqMod_alookup_isSome {r₁ r₂ : Registry} (h : eqMod r₁ r₂) (k : String) :
    (alookup r₁ k).isSome = (alookup r₂ k).isSome := by
  have := eqMod_alookup h k
  cases h₁ : alookup r₁ k <;> cases h₂ : alookup r₂ k <;>
    rw [h₁, h₂] at this <;> simp_all

theorem eqMod_displayName {r₁ r₂ : Registry} (h : eqMod r₁ r₂) (k : String) :
    (alookup r₁ k).map ColumnItem.displayName = (alookup r₂ k).map ColumnItem.displayName := by
  have := eqMod_alookup h k
  cases h₁ : alookup r₁ k <;> cases h₂ : alookup r₂ k <;>
    rw [h₁, h₂] at this <;> simp_all
  have := congrArg ColumnItem.displayName this
  simpa [setDisp] using this

theorem writeDisplayed_eq_self {reg : Registry} {k : String} (v : Bool)
    (h : alookup reg k = none) : writeDisplayed reg k v = reg := by
  induction reg with
  | nil => rfl
  | cons e es ih =>
      unfold alookup at h
      by_cases hek : e.1 = k
      · simp [hek] at h
      · simp only [hek, if_false] at h
        simp [writeDisplayed, hek] at ih ⊢
        exact ih h

/-!
## The visibility pass as a write sequence
-/

theorem setVisibilityItem_eq_applyWrites :
    ∀ n : ColNode, ∀ reg₀ reg : Registry, ∀ p : Bool, ∀ fr : Option FilterMap,
      eqMod reg₀ reg →
      setVisibilityItem reg p fr n = applyWrites reg (visWritesNode reg₀ fr p n) :=
  @ColNode.rec
    (fun n => ∀ reg₀ reg : Registry, ∀ p : Bool, ∀ fr : Option FilterMap,
      eqMod reg₀ reg →
      setVisibilityItem reg p fr n = applyWrites reg (visWritesNode reg₀ fr p n))
    (fun t => ∀ reg₀ reg : Registry, ∀ p : Bool, ∀ fr : Option FilterMap,
      eqMod reg₀ reg →
      recursivelySetVisibility reg p fr t = applyWrites reg (visWritesList reg₀ fr p t))
    (by
      intro id cd nm reg₀ reg p fr _
      show _ = applyWrites reg [(id, p && passesOf fr id)]
      have hw : applyWrites reg [(id, p && passesOf fr id)]
          = writeDisplayed reg id (p && passesOf fr id) := rfl
      rw [hw]
      unfold setVisibilityItem
      cases hl : alookup reg id with
      | some c => rfl
      | none => rw [writeDisplayed_eq_self _ hl])
    (by
      intro id gd pad nm cs ih reg₀ reg p fr h
      unfold setVisibilityItem visWritesNode
      rw [applyWrites_cons]
      cases hl : alookup reg id with
      | some c =>
          simp only [hl]
          have hopen : (p && expandedIn reg₀ id) = (p && c.expanded) := by
            rw [eqMod_expandedIn h id, expandedIn_some hl]
          rw [hopen]
          exact ih reg₀ (writeDisplayed reg id (p && passesOf fr id)) (p && c.expanded) fr
            (eqMod_trans h (eqMod_writeDisplayed reg id (p && passesOf fr id)))
      | none =>
          simp only [hl]
          have hopen : (p && expandedIn reg₀ id) = p := by
            rw [eqMod_expandedIn h id, expandedIn_none hl, Bool.and_true]
          rw [hopen, writeDisplayed_eq_self _ hl]
          exact ih reg₀ reg p fr h)
    (by
      intro reg₀ reg p fr _
      rfl)
    (by
      intro n ns ihn ihl reg₀ reg p fr h
      unfold recursivelySetVisibility visWritesList
      rw [applyWrites_append, ← ihn reg₀ reg p fr h]
      exact ihl reg₀ (setVisibilityItem reg p fr n) p fr
        (by rw [ihn reg₀ reg p fr h]; exact eqMod_trans h (eqMod_applyWrites _ _)))

theorem recursivelySetVisibility_eq_applyWrites :
    ∀ t : List ColNode, ∀ reg₀ reg : Registry, ∀ p : Bool, ∀ fr : Option FilterMap,
      eqMod reg₀ reg →
      recursivelySetVisibility reg p fr t = applyWrites reg (visWritesList reg₀ fr p t) := by
  intro t
  induction t with
  | nil => intro reg₀ reg p fr _; rfl
  | cons n ns ih =>
      intro reg₀ reg p fr h
      unfold recursivelySetVisibility visWritesList
      rw [applyWrites_append,
        ← setVisibilityItem_eq_applyWrites n reg₀ reg p fr h]
      exact ih reg₀ (setVisibilityItem reg p fr n) p fr
        (by rw [setVisibilityItem_eq_applyWrites n reg₀ reg p fr h]
            exact eqMod_trans h (eqMod_applyWrites _ _))

theorem visWritesNode_keys :
    ∀ n : ColNode, ∀ reg : Registry, ∀ fr : Option FilterMap, ∀ p : Bool,
      (visWritesNode reg fr p n).map Prod.fst = nodeIds n :=
  @ColNode.rec
    (fun n => ∀ reg : Registry, ∀ fr : Option FilterMap, ∀ p : Bool,
      (visWritesNode reg fr p n).map Prod.fst = nodeIds n)
    (fun t => ∀ reg : Registry, ∀ fr : Option FilterMap, ∀ p : Bool,
      (visWritesList reg fr p t).map Prod.fst = treeIds t)
    (by intro id cd nm reg fr p; rfl)
    (by
      intro id gd pad nm cs ih reg fr p
      unfold visWritesNode nodeIds
      simp only [List.map]
      rw [ih reg fr (p && expandedIn reg id)])
    (by intro reg fr p; rfl)
    (by
      intro n ns ihn ihl reg fr p
      unfold visWritesList treeIds
      rw [List.map_append, ihn reg fr p, ihl reg fr p])

theorem visWritesList_keys (t : List ColNode) (reg : Registry)
    (fr : Option FilterMap) (p : Bool) :
    (visWritesList reg fr p t).map Prod.fst = treeIds t := by
  induction t with
  | nil => rfl
  | cons n ns ih =>
      unfold visWritesList treeIds
      rw [List.map_append, visWritesNode_keys n reg fr p, ih]

theorem nodeId_mem_nodeIds (n : ColNode) : nodeId n ∈ nodeIds n := by
  cases n <;> simp [nodeId, nodeIds]

theorem mem_treeIds_of_mem {t : List ColNode} {n : ColNode} (h : n ∈ t) :
    ∀ x ∈ nodeIds n, x ∈ treeIds t := by
  induction h with
  | head as => intro x hx; unfold treeIds; exact List.mem_append_left _ hx
  | tail b h ih => intro x hx; unfold treeIds; exact List.mem_append_right _ (ih x hx)

theorem treePath_id_mem {t anc : List ColNode} {n : ColNode}
    (h : TreePath t anc n) : nodeId n ∈ treeIds t := by
  induction h with
  | top hmem => exact mem_treeIds_of_mem hmem _ (nodeId_mem_nodeIds _)
  | down hmem hpath ih =>
      refine mem_treeIds_of_mem hmem _ ?_
      unfold nodeIds
      exact List.mem_cons_of_mem _ ih

theorem openOf_nil (reg : Registry) (p : Bool) : openOf reg p [] = p := by
  simp [openOf]

theorem openOf_cons (reg : Registry) (p : Bool) (g : ColNode) (anc : List ColNode) :
    openOf reg p (g :: anc) = openOf reg (p && expandedIn reg (nodeId g)) anc := by
  simp [openOf, Bool.and_assoc]

/-- The value the visibility pass writes for a node: its "ancestors open"
flag (through the chain `anc`) conjoined with its filter result. -/
theorem lastVal_visWrites {t anc : List ColNode} {n : ColNode}
    (hpath : TreePath t anc n) :
    ∀ reg : Registry, ∀ fr : Option FilterMap, ∀ p : Bool,
      (treeIds t).Nodup →
      lastVal (visWritesList reg fr p t) (nodeId n) =
        some (openOf reg p anc && passesOf fr (nodeId n)) := by
  induction hpath with
  | @top t n hmem =>
      induction hmem with
      | @head as =>
          intro reg fr p hnd
          unfold visWritesList
          rw [lastVal_append]
          unfold treeIds at hnd
          rw [List.nodup_append] at hnd
          have hnotin : nodeId n ∉ treeIds as :=
            fun hmem => hnd.2.2 (nodeId_mem_nodeIds n) hmem
          rw [lastVal_eq_none _ _ (by rw [visWritesList_keys]; exact hnotin)]
          cases n with
          | col id cd nm =>
              simp [visWritesNode, lastVal_cons, lastVal, nodeId, openOf_nil]
          | group id gd pad nm cs =>
              unfold visWritesNode
              rw [lastVal_cons]
              have hnotcs : (id : String) ∉ treeIds cs := by
                have := hnd.1
                unfold nodeIds at this
                rw [List.nodup_cons] at this
                exact this.1
              rw [lastVal_eq_none _ _ (by rw [visWritesList_keys]; exact hnotcs)]
              simp [nodeId, openOf_nil]
      | @tail b as hmem ih =>
          intro reg fr p hnd
          unfold visWritesList
          rw [lastVal_append]
          unfold treeIds at hnd
          rw [List.nodup_append] at hnd
          rw [ih reg fr p hnd.2.1]
  | @down t anc n id gd pad nm cs hmem hpath ih =>
      induction hmem with
      | @head as =>
          intro reg fr p hnd
          unfold visWritesList
          rw [lastVal_append]
          unfold treeIds at hnd
          rw [List.nodup_append] at hnd
          have hassub : nodeId n ∈ nodeIds (ColNode.group id gd pad nm cs) := by
            unfold nodeIds
            exact List.mem_cons_of_mem _ (treePath_id_mem hpath)
          have hnotin : nodeId n ∉ treeIds as := fun hmem => hnd.2.2 hassub hmem
          rw [lastVal_eq_none _ _ (by rw [visWritesList_keys]; exact hnotin)]
          unfold visWritesNode
          rw [lastVal_cons]
          have hndcs : (treeIds cs).Nodup := by
            have := hnd.1
            unfold nodeIds at this
            rw [List.nodup_cons] at this
            exact this.2
          rw [ih reg fr (p && expandedIn reg id) hndcs]
          simp [openOf_cons, nodeId]
      | @tail b as hmem ihmem =>
          intro reg fr p hnd
          unfold visWritesList
          rw [lastVal_append]
          unfold treeIds at hnd
          rw [List.nodup_append] at hnd
          rw [ihmem reg fr p hnd.2.1]

/-!
## Decomposing and composing tree paths
-/

theorem treePath_prefixPath {t anc : List ColNode} {n : ColNode}
    (h : TreePath t anc n) :
    ∀ pre g suf, anc = pre ++ g :: suf → TreePath t pre g := by
  induction h with
  | top hmem =>
      intro pre g suf heq
      cases pre <;> simp at heq
  | @down t anc n id gd pad nm cs hmem hpath ih =>
      intro pre g suf heq
      cases pre with
      | nil =>
          simp only [List.nil_append, List.cons.injEq] at heq
          rw [← heq.1]
          exact TreePath.top hmem
      | cons q pre' =>
          simp only [List.cons_append, List.cons.injEq] at heq
          rw [← heq.1]
          exact TreePath.down hmem (ih pre' g suf heq.2)

theorem treePath_suffix {t anc : List ColNode} {n : ColNode}
    (h : TreePath t anc n) :
    ∀ pre id gd pad nm cs suf,
      anc = pre ++ (ColNode.group id gd pad nm cs) :: suf → TreePath cs suf n := by
  induction h with
  | top hmem =>
      intro pre id gd pad nm cs suf heq
      cases pre <;> simp at heq
  | @down t anc n gid ggd gpad gnm gcs hmem hpath ih =>
      intro pre id gd pad nm cs suf heq
      cases pre with
      | nil =>
          simp only [List.nil_append, List.cons.injEq] at heq
          obtain ⟨h1, h2⟩ := heq
          injection h1 with e1 e2 e3 e4 e5
          subst e5
          rw [← h2]
          exact hpath
      | cons q pre' =>
          simp only [List.cons_append, List.cons.injEq] at heq
          exact ih pre' id gd pad nm cs suf heq.2

theorem treePath_append {t anc₁ : List ColNode} {id : String}
    {gd : Option ColGroupDef} {pad : Bool} {nm : Option String} {cs : List ColNode}
    (h₁ : TreePath t anc₁ (ColNode.group id gd pad nm cs))
    {anc₂ : List ColNode} {n : ColNode} (h₂ : TreePath cs anc₂ n) :
    TreePath t (anc₁ ++ (ColNode.group id gd pad nm cs) :: anc₂) n := by
  suffices aux : ∀ t' anc' (m : ColNode), TreePath t' anc' m →
      m = ColNode.group id gd pad nm cs →
      TreePath t' (anc' ++ (ColNode.group id gd pad nm cs) :: anc₂) n by
    exact aux t anc₁ _ h₁ rfl
  intro t' anc' m hm
  induction hm with
  | top hmem =>
      intro heq
      subst heq
      exact TreePath.down hmem h₂
  | down hmem hpath ih =>
      intro heq
      exact TreePath.down hmem (ih heq)

/-!
## The filter pass: stability and pure correspondence
-/

theorem eqMod_itemFilterFallback {r₁ r₂ : Registry} (h : eqMod r₁ r₂)
    (ft : String) (hp : Bool) (n : ColNode) :
    itemFilterFallback r₁ ft hp n = itemFilterFallback r₂ ft hp n := by
  have hdn := eqMod_displayName h (nodeId n)
  unfold itemFilterFallback
  cases h₁ : alookup r₁ (nodeId n) <;> cases h₂ : alookup r₂ (nodeId n) <;>
      rw [h₁, h₂] at hdn <;> simp at hdn <;> simp [hdn]

theorem eqMod_checkFilterItem {r₁ r₂ : Registry} (h : eqMod r₁ r₂) (ft : String) :
    ∀ n : ColNode, ∀ hp : Bool, ∀ acc : FilterMap,
      checkFilterItem r₁ ft hp acc n = checkFilterItem r₂ ft hp acc n :=
  @ColNode.rec
    (fun n => ∀ hp : Bool, ∀ acc : FilterMap,
      checkFilterItem r₁ ft hp acc n = checkFilterItem r₂ ft hp acc n)
    (fun t => ∀ hp : Bool, ∀ acc : FilterMap,
      recursivelyCheckFilter r₁ ft hp acc t = recursivelyCheckFilter r₂ ft hp acc t)
    (by
      intro id cd nm hp acc
      unfold checkFilterItem
      rw [eqMod_itemFilterFallback h])
    (by
      intro id gd pad nm cs ih hp acc
      unfold checkFilterItem
      rw [ih true acc, eqMod_itemFilterFallback h])
    (by intro hp acc; rfl)
    (by
      intro n ns ihn ihl hp acc
      unfold recursivelyCheckFilter
      simp only [ihn, ihl])

theorem eqMod_recursivelyCheckFilter {r₁ r₂ : Registry} (h : eqMod r₁ r₂)
    (ft : String) (t : List ColNode) (hp : Bool) (acc : FilterMap) :
    recursivelyCheckFilter r₁ ft hp acc t = recursivelyCheckFilter r₂ ft hp acc t := by
  induction t generalizing acc with
  | nil => rfl
  | cons n ns ih =>
      unfold recursivelyCheckFilter
      simp only [eqMod_checkFilterItem h ft, ih]

theorem eqMod_createFilterResults {r₁ r₂ : Registry} (h : eqMod r₁ r₂)
    (t : List ColNode) (ft : String) :
    createFilterResults r₁ t ft = createFilterResults r₂ t ft := by
  unfold createFilterResults
  rw [eqMod_recursivelyCheckFilter h]

theorem filterEntriesNode_keys_mem (reg : Registry) (ft : String) :
    ∀ n : ColNode, ∀ hp : Bool, ∀ k : String,
      (k ∈ (filterEntriesNode reg ft hp n).map Prod.fst ↔ k ∈ nodeIds n) :=
  @ColNode.rec
    (fun n => ∀ hp : Bool, ∀ k : String,
      (k ∈ (filterEntriesNode reg ft hp n).map Prod.fst ↔ k ∈ nodeIds n))
    (fun t => ∀ hp : Bool, ∀ k : String,
      (k ∈ (filterEntriesList reg ft hp t).map Prod.fst ↔ k ∈ treeIds t))
    (by intro id cd nm hp k; simp [filterEntriesNode, nodeIds])
    (by
      intro id gd pad nm cs ih hp k
      unfold filterEntriesNode nodeIds
      rw [List.map_append, List.mem_append, ih true k]
      simp [List.mem_cons, or_comm])
    (by intro hp k; simp [filterEntriesList, treeIds])
    (by
      intro n ns ihn ihl hp k
      unfold filterEntriesList treeIds
      rw [List.map_append, List.mem_append, List.mem_append, ihn hp k, ihl hp k])

theorem filterEntriesList_keys_mem (reg : Registry) (ft : String)
    (t : List ColNode) (hp : Bool) (k : String) :
    k ∈ (filterEntriesList reg ft hp t).map Prod.fst ↔ k ∈ treeIds t := by
  induction t with
  | nil => simp [filterEntriesList, treeIds]
  | cons n ns ih =>
      unfold filterEntriesList treeIds
      rw [List.map_append, List.mem_append, List.mem_append,
        filterEntriesNode_keys_mem reg ft n hp k, ih]

theorem checkFilterItem_pure (reg : Registry) (ft : String) :
    ∀ n : ColNode, ∀ hp : Bool, ∀ acc : FilterMap,
      (nodeIds n).Nodup →
      (∀ k ∈ acc.map Prod.fst, k ∉ nodeIds n) →
      checkFilterItem reg ft hp acc n =
        (acc ++ filterEntriesNode reg ft hp n, filterPassNode reg ft hp n) :=
  @ColNode.rec
    (fun n => ∀ hp : Bool, ∀ acc : FilterMap,
      (nodeIds n).Nodup →
      (∀ k ∈ acc.map Prod.fst, k ∉ nodeIds n) →
      checkFilterItem reg ft hp acc n =
        (acc ++ filterEntriesNode reg ft hp n, filterPassNode reg ft hp n))
    (fun t => ∀ hp : Bool, ∀ acc : FilterMap,
      (treeIds t).Nodup →
      (∀ k ∈ acc.map Prod.fst, k ∉ treeIds t) →
      recursivelyCheckFilter reg ft hp acc t =
        (acc ++ filterEntriesList reg ft hp t, filterPassList reg ft hp t))
    (by
      intro id cd nm hp acc _ hdisj
      unfold checkFilterItem filterEntriesNode filterPassNode
      have hid : id ∉ acc.map Prod.fst := by
        intro hin
        exact hdisj id hin (by unfold nodeIds; exact List.mem_singleton.mpr rfl)
      simp only [upsert_eq_append acc id
        (itemFilterFallback reg ft hp (ColNode.col id cd nm)) hid])
    (by
      intro id gd pad nm cs ih hp acc hnd hdisj
      unfold checkFilterItem
      unfold nodeIds at hnd
      rw [List.nodup_cons] at hnd
      have hdisj_cs : ∀ k ∈ acc.map Prod.fst, k ∉ treeIds cs := by
        intro k hk hin
        exact hdisj k hk (by unfold nodeIds; exact List.mem_cons_of_mem _ hin)
      simp only [ih true acc hnd.2 hdisj_cs]
      have hid : id ∉ (acc ++ filterEntriesList reg ft true cs).map Prod.fst := by
        rw [List.map_append, List.mem_append]
        rintro (hin | hin)
        · exact hdisj id hin (by unfold nodeIds; exact List.mem_cons_self id _)
        · exact hnd.1 ((filterEntriesList_keys_mem reg ft cs true id).mp hin)
      rw [upsert_eq_append _ id _ hid, List.append_assoc]
      unfold filterEntriesNode filterPassNode
      rfl)
    (by
      intro hp acc _ _
      unfold recursivelyCheckFilter filterEntriesList filterPassList
      simp)
    (by
      intro n ns ihn ihl hp acc hnd hdisj
      unfold recursivelyCheckFilter
      unfold treeIds at hnd
      rw [List.nodup_append] at hnd
      have hdisj_n : ∀ k ∈ acc.map Prod.fst, k ∉ nodeIds n := by
        intro k hk hin
        exact hdisj k hk (by unfold treeIds; exact List.mem_append_left _ hin)
      simp only [ihn hp acc hnd.1 hdisj_n]
      have hdisj_ns : ∀ k ∈ (acc ++ filterEntriesNode reg ft hp n).map Prod.fst,
          k ∉ treeIds ns := by
        intro k hk
        rw [List.map_append, List.mem_append] at hk
        rcases hk with hin | hin
        · exact fun hmem => hdisj k hin (by unfold treeIds; exact List.mem_append_right _ hmem)
        · exact fun hmem =>
            hnd.2.2 ((filterEntriesNode_keys_mem reg ft n hp k).mp hin) hmem
      simp only [ihl hp _ hnd.2.1 hdisj_ns]
      rw [List.append_assoc]
      simp only [filterEntriesList, filterPassList])

theorem recursivelyCheckFilter_pure (reg : Registry) (ft : String)
    (t : List ColNode) (hp : Bool) (acc : FilterMap)
    (hnd : (treeIds t).Nodup)
    (hdisj : ∀ k ∈ acc.map Prod.fst, k ∉ treeIds t) :
    recursivelyCheckFilter reg ft hp acc t =
      (acc ++ filterEntriesList reg ft hp t, filterPassList reg ft hp t) := by
  induction t generalizing acc with
  | nil =>
      unfold recursivelyCheckFilter filterEntriesList filterPassList
      simp
  | cons n ns ih =>
      unfold recursivelyCheckFilter
      unfold treeIds at hnd
      rw [List.nodup_append] at hnd
      have hdisj_n : ∀ k ∈ acc.map Prod.fst, k ∉ nodeIds n := by
        intro k hk hin
        exact hdisj k hk (by unfold treeIds; exact List.mem_append_left _ hin)
      simp only [checkFilterItem_pure reg ft n hp acc hnd.1 hdisj_n]
      have hdisj_ns : ∀ k ∈ (acc ++ filterEntriesNode reg ft hp n).map Prod.fst,
          k ∉ treeIds ns := by
        intro k hk
        rw [List.map_append, List.mem_append] at hk
        rcases hk with hin | hin
        · exact fun hmem => hdisj k hin (by unfold treeIds; exact List.mem_append_right _ hmem)
        · exact fun hmem =>
            hnd.2.2 ((filterEntriesNode_keys_mem reg ft n hp k).mp hin) hmem
      simp only [ih _ hnd.2.1 hdisj_ns]
      rw [List.append_assoc]
      simp only [filterEntriesList, filterPassList]

/-- `createFilterResults` computes exactly the pure per-node entries. -/
theorem createFilterResults_pure (reg : Registry) (t : List ColNode) (ft : String)
    (hnd : (treeIds t).Nodup) :
    createFilterResults reg t ft = filterEntriesList reg ft false t := by
  unfold createFilterResults
  rw [recursivelyCheckFilter_pure reg ft t false [] hnd (by simp)]
  simp

theorem alookup_filterEntriesNode_self (reg : Registry) (ft : String)
    (n : ColNode) (hp : Bool) (hnd : (nodeIds n).Nodup) :
    alookup (filterEntriesNode reg ft hp n) (nodeId n) =
      some (filterPassNode reg ft hp n) := by
  cases n with
  | col id cd nm =>
      simp [filterEntriesNode, nodeId, alookup]
  | group id gd pad nm cs =>
      unfold nodeIds at hnd
      rw [List.nodup_cons] at hnd
      simp only [filterEntriesNode, nodeId]
      rw [alookup_append]
      rw [alookup_eq_none _ _ (fun hin =>
        hnd.1 ((filterEntriesList_keys_mem reg ft cs true id).mp hin))]
      simp [alookup]

/-- The filter map records, for every node, exactly the pure depth-first
filter result of that node. -/
theorem alookup_filterEntries {t anc : List ColNode} {n : ColNode}
    (hpath : TreePath t anc n) :
    ∀ reg : Registry, ∀ ft : String, ∀ hp : Bool,
      (treeIds t).Nodup →
      alookup (filterEntriesList reg ft hp t) (nodeId n) =
        some (filterPassNode reg ft (hpOf hp anc) n) := by
  induction hpath with
  | @top t n hmem =>
      induction hmem with
      | @head as =>
          intro reg ft hp hnd
          unfold filterEntriesList
          rw [alookup_append]
          unfold treeIds at hnd
          rw [List.nodup_append] at hnd
          rw [alookup_filterEntriesNode_self reg ft n hp hnd.1]
          rfl
      | @tail b as hmem ih =>
          intro reg ft hp hnd
          unfold filterEntriesList
          rw [alookup_append]
          unfold treeIds at hnd
          rw [List.nodup_append] at hnd
          have hnotb : nodeId n ∉ nodeIds b := fun hin =>
            hnd.2.2 hin (treePath_id_mem (TreePath.top hmem))
          rw [alookup_eq_none _ _ (fun hin =>
            hnotb ((filterEntriesNode_keys_mem reg ft b hp (nodeId n)).mp hin))]
          rw [ih reg ft hp hnd.2.1]
  | @down t anc n id gd pad nm cs hmem hpath ih =>
      induction hmem with
      | @head as =>
          intro reg ft hp hnd
          unfold filterEntriesList
          rw [alookup_append]
          unfold treeIds at hnd
          rw [List.nodup_append] at hnd
          have hinsub : nodeId n ∈ treeIds cs := treePath_id_mem hpath
          have hndg := hnd.1
          unfold nodeIds at hndg
          rw [List.nodup_cons] at hndg
          simp only [filterEntriesNode]
          rw [alookup_append]
          rw [ih reg ft true hndg.2]
          cases anc <;> rfl
      | @tail b as hmem ihmem =>
          intro reg ft hp hnd
          unfold filterEntriesList
          rw [alookup_append]
          unfold treeIds at hnd
          rw [List.nodup_append] at hnd
          have hassub : nodeId n ∈ nodeIds (ColNode.group id gd pad nm cs) := by
            unfold nodeIds
            exact List.mem_cons_of_mem _ (treePath_id_mem hpath)
          have hnotb : nodeId n ∉ nodeIds b := fun hin => hnd.2.2 hin
            (mem_treeIds_of_mem hmem _ hassub)
          rw [alookup_eq_none _ _ (fun hin =>
            hnotb ((filterEntriesNode_keys_mem reg ft b hp (nodeId n)).mp hin))]
          rw [ihmem reg ft hp hnd.2.1]

theorem filterPassList_of_mem {reg : Registry} {ft : String} {m : ColNode}
    {cs : List ColNode} (hmem : m ∈ cs)
    (h : filterPassNode reg ft true m = true) :
    filterPassList reg ft true cs = true := by
  induction hmem with
  | head as => simp [filterPassList, h]
  | tail b hmem ih => simp [filterPassList, ih]

/-- A passing node makes every enclosing forest pass: the depth-first rule
propagates `true` upwards. -/
theorem filterPass_propagate {cs anc : List ColNode} {n : ColNode}
    (hpath : TreePath cs anc n) :
    ∀ reg : Registry, ∀ ft : String,
      filterPassNode reg ft true n = true →
      filterPassList reg ft true cs = true := by
  induction hpath with
  | top hmem =>
      intro reg ft h
      exact filterPassList_of_mem hmem h
  | @down t anc n id gd pad nm cs hmem hpath ih =>
      intro reg ft h
      refine filterPassList_of_mem hmem ?_
      simp [filterPassNode, ih reg ft h]

/-!
## The rebuild as a pure entry list
-/

theorem builtEntriesNode_keys_sub (eDef : Bool) :
    ∀ n : ColNode, ∀ k : String,
      k ∈ (builtEntriesNode eDef n).map Prod.fst → k ∈ nodeIds n :=
  @ColNode.rec
    (fun n => ∀ k : String,
      k ∈ (builtEntriesNode eDef n).map Prod.fst → k ∈ nodeIds n)
    (fun t => ∀ k : String,
      k ∈ (builtEntriesList eDef t).map Prod.fst → k ∈ treeIds t)
    (by
      intro id cd nm k h
      unfold builtEntriesNode at h
      unfold nodeIds
      by_cases hs : defSuppressed cd <;> simp [hs] at h <;> simp [h])
    (by
      intro id gd pad nm cs ih k h
      unfold builtEntriesNode at h
      unfold nodeIds
      by_cases hs : groupDefSuppressed gd
      · simp [hs] at h
      · by_cases hpad : pad
        · simp [hs, hpad] at h
          obtain ⟨x, hx⟩ := h
          exact List.mem_cons_of_mem _ (ih k (List.mem_map.mpr ⟨(k, x), hx, rfl⟩))
        · simp [hs, hpad] at h
          rcases h with h | ⟨x, hx⟩
          · simp [h]
          · exact List.mem_cons_of_mem _ (ih k (List.mem_map.mpr ⟨(k, x), hx, rfl⟩)))
    (by intro k h; simp [builtEntriesList] at h)
    (by
      intro n ns ihn ihl k h
      unfold builtEntriesList at h
      rw [List.map_append, List.mem_append] at h
      unfold treeIds
      rcases h with h | h
      · exact List.mem_append_left _ (ihn k h)
      · exact List.mem_append_right _ (ihl k h))

theorem builtEntriesList_keys_sub (eDef : Bool) (t : List ColNode) (k : String)
    (h : k ∈ (builtEntriesList eDef t).map Prod.fst) : k ∈ treeIds t := by
  induction t with
  | nil => simp [builtEntriesList] at h
  | cons n ns ih =>
      unfold builtEntriesList at h
      rw [List.map_append, List.mem_append] at h
      unfold treeIds
      rcases h with h | h
      · exact List.mem_append_left _ (builtEntriesNode_keys_sub eDef n k h)
      · exact List.mem_append_right _ (ih h)

theorem addComp_pure (eDef groupsExist : Bool) :
    ∀ n : ColNode, ∀ reg : Registry, ∀ dept : Nat,
      (nodeIds n).Nodup →
      (∀ k ∈ reg.map Prod.fst, k ∉ nodeIds n) →
      addComp eDef reg dept groupsExist n = reg ++ builtEntriesNode eDef n :=
  @ColNode.rec
    (fun n => ∀ reg : Registry, ∀ dept : Nat,
      (nodeIds n).Nodup →
      (∀ k ∈ reg.map Prod.fst, k ∉ nodeIds n) →
      addComp eDef reg dept groupsExist n = reg ++ builtEntriesNode eDef n)
    (fun t => ∀ reg : Registry, ∀ dept : Nat,
      (treeIds t).Nodup →
      (∀ k ∈ reg.map Prod.fst, k ∉ treeIds t) →
      recursivelyAddComps eDef reg dept groupsExist t = reg ++ builtEntriesList eDef t)
    (by
      intro id cd nm reg dept _ hdisj
      unfold addComp builtEntriesNode
      by_cases hs : defSuppressed cd
      · simp [hs]
      · have hid : id ∉ reg.map Prod.fst := fun hin =>
          hdisj id hin (by unfold nodeIds; exact List.mem_singleton.mpr rfl)
        simp [hs, upsert_eq_append reg id (mkColumnComp nm) hid])
    (by
      intro id gd pad nm cs ih reg dept hnd hdisj
      unfold addComp builtEntriesNode
      unfold nodeIds at hnd
      rw [List.nodup_cons] at hnd
      by_cases hs : groupDefSuppressed gd
      · simp [hs]
      · have hid : id ∉ reg.map Prod.fst := fun hin =>
          hdisj id hin (by unfold nodeIds; exact List.mem_cons_self id _)
        have hdisj_cs : ∀ k ∈ reg.map Prod.fst, k ∉ treeIds cs := by
          intro k hk hin
          exact hdisj k hk (by unfold nodeIds; exact List.mem_cons_of_mem _ hin)
        simp only [if_neg hs]
        cases hpad : pad with
        | true =>
            simp only [Bool.not_true, Bool.false_eq_true, if_false]
            exact ih reg dept hnd.2 hdisj_cs
        | false =>
            simp only [Bool.not_false, if_true]
            rw [upsert_eq_append reg id _ hid]
            have hdisj' : ∀ k ∈ (reg ++ [(id, mkGroupComp nm cs eDef)]).map Prod.fst,
                k ∉ treeIds cs := by
              intro k hk
              rw [List.map_append, List.mem_append] at hk
              rcases hk with hk | hk
              · exact hdisj_cs k hk
              · simp at hk
                rw [hk]
                exact hnd.1
            rw [ih (reg ++ [(id, mkGroupComp nm cs eDef)]) (dept + 1) hnd.2 hdisj']
            rw [List.append_assoc]
            rfl)
    (by
      intro reg dept _ _
      unfold recursivelyAddComps builtEntriesList
      simp)
    (by
      intro n ns ihn ihl reg dept hnd hdisj
      unfold recursivelyAddComps
      unfold treeIds at hnd
      rw [List.nodup_append] at hnd
      have hdisj_n : ∀ k ∈ reg.map Prod.fst, k ∉ nodeIds n := by
        intro k hk hin
        exact hdisj k hk (by unfold treeIds; exact List.mem_append_left _ hin)
      rw [ihn reg dept hnd.1 hdisj_n]
      have hdisj_ns : ∀ k ∈ (reg ++ builtEntriesNode eDef n).map Prod.fst,
          k ∉ treeIds ns := by
        intro k hk
        rw [List.map_append, List.mem_append] at hk
        rcases hk with hk | hk
        · exact fun hmem => hdisj k hk (by unfold treeIds; exact List.mem_append_right _ hmem)
        · exact fun hmem => hnd.2.2 (builtEntriesNode_keys_sub eDef n k hk) hmem
      rw [ihl (reg ++ builtEntriesNode eDef n) dept hnd.2.1 hdisj_ns]
      rw [List.append_assoc]
      simp only [builtEntriesList])

theorem recursivelyAddComps_pure_general (eDef groupsExist : Bool)
    (t : List ColNode) :
    ∀ reg : Registry, ∀ dept : Nat,
      (treeIds t).Nodup →
      (∀ k ∈ reg.map Prod.fst, k ∉ treeIds t) →
      recursivelyAddComps eDef reg dept groupsExist t = reg ++ builtEntriesList eDef t := by
  induction t with
  | nil =>
      intro reg dept _ _
      unfold recursivelyAddComps builtEntriesList
      simp
  | cons n ns ih =>
      intro reg dept hnd hdisj
      unfold recursivelyAddComps
      unfold treeIds at hnd
      rw [List.nodup_append] at hnd
      have hdisj_n : ∀ k ∈ reg.map Prod.fst, k ∉ nodeIds n := by
        intro k hk hin
        exact hdisj k hk (by unfold treeIds; exact List.mem_append_left _ hin)
      rw [addComp_pure eDef groupsExist n reg dept hnd.1 hdisj_n]
      have hdisj_ns : ∀ k ∈ (reg ++ builtEntriesNode eDef n).map Prod.fst,
          k ∉ treeIds ns := by
        intro k hk
        rw [List.map_append, List.mem_append] at hk
        rcases hk with hk | hk
        · exact fun hmem => hdisj k hk (by unfold treeIds; exact List.mem_append_right _ hmem)
        · exact fun hmem => hnd.2.2 (builtEntriesNode_keys_sub eDef n k hk) hmem
      rw [ih (reg ++ builtEntriesNode eDef n) dept hnd.2.1 hdisj_ns]
      rw [List.append_assoc]
      simp only [builtEntriesList]

/-- With pairwise distinct tree ids, a rebuild produces exactly the pure
entry list. -/
theorem recursivelyAddComps_pure (eDef groupsExist : Bool) (t : List ColNode)
    (hnd : (treeIds t).Nodup) :
    recursivelyAddComps eDef [] 0 groupsExist t = builtEntriesList eDef t := by
  rw [recursivelyAddComps_pure_general eDef groupsExist t [] 0 hnd (by simp)]
  simp

theorem countKey_cons {α : Type} (e : String × α) (l : List (String × α)) (k : String) :
    countKey (e :: l) k = (if e.1 = k then 1 else 0) + countKey l k := by
  unfold countKey
  rw [List.filter_cons]
  by_cases h : e.1 = k <;> simp [h, Nat.add_comm]

theorem countKey_builtEntriesList_zero (eDef : Bool) (t : List ColNode) (k : String)
    (h : k ∉ treeIds t) : countKey (builtEntriesList eDef t) k = 0 :=
  countKey_eq_zero _ _ (fun hin => h (builtEntriesList_keys_sub eDef t k hin))

theorem countKey_builtEntriesNode_self (eDef : Bool) (n : ColNode)
    (hnd : (nodeIds n).Nodup) :
    countKey (builtEntriesNode eDef n) (nodeId n) =
      if nodeSuppressed n || nodePadding n then 0 else 1 := by
  cases n with
  | col id cd nm =>
      unfold builtEntriesNode nodeSuppressed nodePadding nodeId
      cases hs : defSuppressed cd with
      | true => simp [countKey_nil, hs]
      | false => simp [countKey_singleton, hs]
  | group id gd pad nm cs =>
      unfold builtEntriesNode nodeSuppressed nodePadding nodeId
      unfold nodeIds at hnd
      rw [List.nodup_cons] at hnd
      cases hs : groupDefSuppressed gd with
      | true => simp [countKey_nil, hs]
      | false =>
          cases hpad : pad with
          | true =>
              simp [hs, countKey_builtEntriesList_zero eDef cs id hnd.1]
          | false =>
              simp [hs, countKey_cons, countKey_builtEntriesList_zero eDef cs id hnd.1]

/-- How many registry entries the rebuild creates for a given node: one,
unless the node is padding, carries a suppressing definition, or sits below
a group whose definition suppresses it (then zero). -/
theorem countKey_builtEntries {t anc : List ColNode} {n : ColNode}
    (hpath : TreePath t anc n) :
    ∀ eDef : Bool, (treeIds t).Nodup →
      countKey (builtEntriesList eDef t) (nodeId n) =
        if nodeSuppressed n || nodePadding n || anc.any nodeSuppressed then 0 else 1 := by
  induction hpath with
  | @top t n hmem =>
      induction hmem with
      | @head as =>
          intro eDef hnd
          unfold builtEntriesList
          rw [countKey_append]
          unfold treeIds at hnd
          rw [List.nodup_append] at hnd
          rw [countKey_builtEntriesList_zero eDef as (nodeId n)
            (fun hmem => hnd.2.2 (nodeId_mem_nodeIds n) hmem)]
          rw [countKey_builtEntriesNode_self eDef n hnd.1]
          simp
      | @tail b as hmem ih =>
          intro eDef hnd
          unfold builtEntriesList
          rw [countKey_append]
          unfold treeIds at hnd
          rw [List.nodup_append] at hnd
          have hnotb : nodeId n ∉ nodeIds b := fun hin =>
            hnd.2.2 hin (treePath_id_mem (TreePath.top hmem))
          rw [countKey_eq_zero _ _ (fun hin =>
            hnotb (builtEntriesNode_keys_sub eDef b (nodeId n) hin))]
          rw [ih eDef hnd.2.1]
          simp
  | @down t anc n id gd pad nm cs hmem hpath ih =>
      induction hmem with
      | @head as =>
          intro eDef hnd
          unfold builtEntriesList
          rw [countKey_append]
          unfold treeIds at hnd
          rw [List.nodup_append] at hnd
          have hinsub : nodeId n ∈ treeIds cs := treePath_id_mem hpath
          have hassub : nodeId n ∈ nodeIds (ColNode.group id gd pad nm cs) := by
            unfold nodeIds
            exact List.mem_cons_of_mem _ hinsub
          rw [countKey_builtEntriesList_zero eDef as (nodeId n)
            (fun hmem => hnd.2.2 hassub hmem)]
          have hndg := hnd.1
          unfold nodeIds at hndg
          rw [List.nodup_cons] at hndg
          unfold builtEntriesNode
          cases hs : groupDefSuppressed gd with
          | true =>
              simp [countKey_nil, List.any_cons, nodeSuppressed, hs]
          | false =>
              cases hpad2 : pad with
              | true =>
                  simp only [Bool.not_true, Bool.false_eq_true, if_false]
                  rw [ih eDef hndg.2]
                  have hany : (ColNode.group id gd true nm cs :: anc).any nodeSuppressed =
                      anc.any nodeSuppressed := by
                    rw [List.any_cons]
                    simp [nodeSuppressed, hs]
                  rw [hany]
                  simp
              | false =>
                  simp only [Bool.not_false, if_true, Bool.false_eq_true, if_false]
                  rw [countKey_cons]
                  have hne : ¬ id = nodeId n := fun he => hndg.1 (he ▸ hinsub)
                  rw [if_neg hne, ih eDef hndg.2]
                  have hany : (ColNode.group id gd false nm cs :: anc).any nodeSuppressed =
                      anc.any nodeSuppressed := by
                    rw [List.any_cons]
                    simp [nodeSuppressed, hs]
                  rw [hany]
                  simp
      | @tail b as hmem ihmem =>
          intro eDef hnd
          unfold builtEntriesList
          rw [countKey_append]
          unfold treeIds at hnd
          rw [List.nodup_append] at hnd
          have hassub : nodeId n ∈ nodeIds (ColNode.group id gd pad nm cs) := by
            unfold nodeIds
            exact List.mem_cons_of_mem _ (treePath_id_mem hpath)
          have hnotb : nodeId n ∉ nodeIds b := fun hin => hnd.2.2 hin
            (mem_treeIds_of_mem hmem _ hassub)
          rw [countKey_eq_zero _ _ (fun hin =>
            hnotb (builtEntriesNode_keys_sub eDef b (nodeId n) hin))]
          rw [ihmem eDef hnd.2.1]
          simp

theorem countKey_map_entryStrip (m : Registry) (k : String) :
    countKey (m.map entryStrip) k = countKey m k := by
  induction m with
  | nil => rfl
  | cons e es ih =>
      simp only [List.map]
      rw [countKey_cons, countKey_cons, ih]
      rfl

theorem eqMod_countKey {r₁ r₂ : Registry} (h : eqMod r₁ r₂) (k : String) :
    countKey r₁ k = countKey r₂ k := by
  rw [← countKey_map_entryStrip r₁ k, ← countKey_map_entryStrip r₂ k, h]

theorem mem_upsert {α : Type} {m : List (String × α)} {k : String} {v : α}
    {e : String × α} (h : e ∈ upsert m k v) : e ∈ m ∨ e = (k, v) := by
  induction m with
  | nil =>
      unfold upsert at h
      right
      simpa using h
  | cons f fs ih =>
      unfold upsert at h
      by_cases hfk : f.1 = k
      · rw [if_pos hfk] at h
        rcases List.mem_cons.mp h with h | h
        · right; exact h
        · left; exact List.mem_cons_of_mem _ h
      · rw [if_neg hfk] at h
        rcases List.mem_cons.mp h with h | h
        · left; rw [h]; exact List.mem_cons_self _ _
        · rcases ih h with h | h
          · left; exact List.mem_cons_of_mem _ h
          · right; exact h

theorem eqMod_mem {r₁ r₂ : Registry} (h : eqMod r₁ r₂) {e : String × ColumnItem}
    (hmem : e ∈ r₂) : ∃ e' ∈ r₁, entryStrip e' = entryStrip e := by
  have : entryStrip e ∈ r₁.map entryStrip := by
    rw [h]
    exact List.mem_map_of_mem entryStrip hmem
  rcases List.mem_map.mp this with ⟨e', he', heq⟩
  exact ⟨e', he', heq⟩

theorem entryStrip_fields {e e' : String × ColumnItem}
    (h : entryStrip e' = entryStrip e) :
    e'.1 = e.1 ∧ e'.2.isGroup = e.2.isGroup ∧ e'.2.expanded = e.2.expanded ∧
      e'.2.isExpandable = e.2.isExpandable ∧ e'.2.displayName = e.2.displayName := by
  unfold entryStrip at h
  have h1 : e'.1 = e.1 := by
    have := congrArg Prod.fst h
    simpa using this
  have h2 : setDisp e'.2 false = setDisp e.2 false := by
    have := congrArg Prod.snd h
    simpa using this
  refine ⟨h1, ?_, ?_, ?_, ?_⟩
  · have := congrArg ColumnItem.isGroup h2
    simpa [setDisp] using this
  · have := congrArg ColumnItem.expanded h2
    simpa [setDisp] using this
  · have := congrArg ColumnItem.isExpandable h2
    simpa [setDisp] using this
  · have := congrArg ColumnItem.displayName h2
    simpa [setDisp] using this

/-- After a visibility recomputation, a node's comp (if any) keeps all its
fields except that `displayed` becomes "ancestors open" ∧ "passes". -/
theorem updateVisibility_displayed_char (s : PanelState) {anc : List ColNode}
    {n : ColNode} (hnd : (treeIds s.columnTree).Nodup)
    (hpath : TreePath s.columnTree anc n) :
    alookup (updateVisibilityOfRows s).columnComps (nodeId n) =
      (alookup s.columnComps (nodeId n)).map
        (fun c => setDisp c
          (openOf s.columnComps true anc &&
            passesOf (panelFilterResults s) (nodeId n))) := by
  unfold updateVisibilityOfRows
  simp only []
  rw [recursivelySetVisibility_eq_applyWrites s.columnTree s.columnComps s.columnComps
    true (panelFilterResults s) (eqMod_refl _)]
  rw [alookup_applyWrites]
  rw [lastVal_visWrites hpath s.columnComps (panelFilterResults s) true hnd]
  cases alookup s.columnComps (nodeId n) <;> simp

theorem treePath_anc_group {t anc : List ColNode} {n : ColNode}
    (hpath : TreePath t anc n) :
    ∀ g ∈ anc, ∃ id gd pad nm cs, g = ColNode.group id gd pad nm cs := by
  induction hpath with
  | top _ => intro g hg; simp at hg
  | @down t anc n id gd pad nm cs hmem hpath ih =>
      intro g hg
      rcases List.mem_cons.mp hg with hg | hg
      · exact ⟨id, gd, pad, nm, cs, hg⟩
      · exact ih g hg

/-- Any ancestor on a tree path is a group sitting on its own path, with the
target in its subtree. -/
theorem treePath_anc_decomp {t anc : List ColNode} {n : ColNode}
    (hpath : TreePath t anc n) {g : ColNode} (hg : g ∈ anc) :
    ∃ pre suf id gd pad nm cs, g = ColNode.group id gd pad nm cs ∧
      anc = pre ++ g :: suf ∧ TreePath t pre g ∧ TreePath cs suf n := by
  rcases List.append_of_mem hg with ⟨pre, suf, heq⟩
  rcases treePath_anc_group hpath g hg with ⟨id, gd, pad, nm, cs, hshape⟩
  refine ⟨pre, suf, id, gd, pad, nm, cs, hshape, heq, ?_, ?_⟩
  · exact treePath_prefixPath hpath pre g suf heq
  · exact treePath_suffix hpath pre id gd pad nm cs suf (by rw [heq, hshape])

theorem addComp_expanded_default (eDef groupsExist : Bool) :
    ∀ n : ColNode, ∀ reg : Registry, ∀ dept : Nat,
      (∀ e ∈ reg, e.2.isGroup = true → e.2.expanded = eDef) →
      ∀ e ∈ addComp eDef reg dept groupsExist n,
        e.2.isGroup = true → e.2.expanded = eDef :=
  @ColNode.rec
    (fun n => ∀ reg : Registry, ∀ dept : Nat,
      (∀ e ∈ reg, e.2.isGroup = true → e.2.expanded = eDef) →
      ∀ e ∈ addComp eDef reg dept groupsExist n,
        e.2.isGroup = true → e.2.expanded = eDef)
    (fun t => ∀ reg : Registry, ∀ dept : Nat,
      (∀ e ∈ reg, e.2.isGroup = true → e.2.expanded = eDef) →
      ∀ e ∈ recursivelyAddComps eDef reg dept groupsExist t,
        e.2.isGroup = true → e.2.expanded = eDef)
    (by
      intro id cd nm reg dept hreg e he
      unfold addComp at he
      by_cases hs : defSuppressed cd
      · rw [if_pos hs] at he
        exact hreg e he
      · rw [if_neg hs] at he
        rcases mem_upsert he with he | he
        · exact hreg e he
        · rw [he]
          intro hg
          simp [mkColumnComp] at hg)
    (by
      intro id gd pad nm cs ih reg dept hreg e he
      unfold addComp at he
      by_cases hs : groupDefSuppressed gd
      · rw [if_pos hs] at he
        exact hreg e he
      · rw [if_neg hs] at he
        cases hpad : pad with
        | true =>
            rw [hpad] at he
            simp only [Bool.not_true, Bool.false_eq_true, if_false] at he
            exact ih reg dept hreg e he
        | false =>
            rw [hpad] at he
            simp only [Bool.not_false, if_true] at he
            refine ih (upsert reg id (mkGroupComp nm cs eDef)) (dept + 1) ?_ e he
            intro f hf hg
            rcases mem_upsert hf with hf | hf
            · exact hreg f hf hg
            · rw [hf]
              rfl)
    (by
      intro reg dept hreg e he
      exact hreg e he)
    (by
      intro n ns ihn ihl reg dept hreg e he
      unfold recursivelyAddComps at he
      exact ihl (addComp eDef reg dept groupsExist n) dept
        (ihn reg dept hreg) e he)

theorem panelState_eta_comps (p : PanelState) (c : Registry)
    (h : c = p.columnComps) : { p with columnComps := c } = p := by
  cases p
  rw [h]

theorem panelState_eta_filterText (p : PanelState) (v : Option String)
    (h : v = p.filterText) : { p with filterText := v } = p := by
  cases p
  rw [h]

theorem setDisp_expanded (c : ColumnItem) (v : Bool) : (setDisp c v).expanded = c.expanded := rfl

theorem hpOf_ne_nil {anc : List ColNode} (h : anc ≠ []) (hp : Bool) :
    hpOf hp anc = true := by
  cases anc with
  | nil => exact absurd rfl h
  | cons g anc' => rfl

/-!
## Claim theorems
-/

theorem panelFilterResults_some {s : PanelState} {m : FilterMap}
    (h : panelFilterResults s = some m) :
    ∃ ft : String, s.filterText = some ft ∧ ft ≠ "" ∧
      m = createFilterResults s.columnComps s.columnTree ft := by
  unfold panelFilterResults at h
  cases hft : s.filterText with
  | none => rw [hft] at h; simp at h
  | some ft =>
      rw [hft] at h
      have h' : (if ft ≠ "" then
          some (createFilterResults s.columnComps s.columnTree ft) else none) = some m := h
      by_cases hne : ft ≠ ""
      · rw [if_pos hne] at h'
        injection h' with h'
        exact ⟨ft, rfl, hne, h'.symm⟩
      · simp [hne] at h' 

/-- C1: after any visibility recomputation (`updateVisibilityOfRows`), a
node's display flag is true iff (the node passes the filter, or filtering
is disabled) and every ancestor group holding a registry item is expanded
and every ancestor holding a registry item is itself displayed.  Ancestors
without items (padding or suppressed) carry no expansion/display flags and
are transparent, as the spec prescribes. -/
theorem claim_C1_display_iff (s : PanelState) (anc : List ColNode) (n : ColNode)
    (c : ColumnItem)
    (hnd : (treeIds s.columnTree).Nodup)
    (hpath : TreePath s.columnTree anc n)
    (hc : alookup (updateVisibilityOfRows s).columnComps (nodeId n) = some c) :
    c.displayed = true ↔
      ((∀ m, panelFilterResults s = some m → alookup m (nodeId n) = some true) ∧
       (∀ g ∈ anc, ∀ cg,
          alookup (updateVisibilityOfRows s).columnComps (nodeId g) = some cg →
          cg.expanded = true) ∧
       (∀ g ∈ anc, ∀ cg,
          alookup (updateVisibilityOfRows s).columnComps (nodeId g) = some cg →
          cg.displayed = true)) := by
  have hchar := updateVisibility_displayed_char s hnd hpath
  rw [hchar] at hc
  cases h0 : alookup s.columnComps (nodeId n) with
  | none => rw [h0] at hc; simp at hc
  | some c0 =>
      rw [h0] at hc
      simp only [Option.map_some'] at hc
      have hceq : c = setDisp c0
          (openOf s.columnComps true anc &&
            passesOf (panelFilterResults s) (nodeId n)) := by
        injection hc with h
        exact h.symm
      subst hceq
      rw [setDisp_displayed]
      constructor
      · intro h
        rw [Bool.and_eq_true] at h
        obtain ⟨hopen, hpass⟩ := h
        have hall : ∀ g ∈ anc, expandedIn s.columnComps (nodeId g) = true := by
          unfold openOf at hopen
          rw [Bool.and_eq_true] at hopen
          exact List.all_eq_true.mp hopen.2
        refine ⟨?_, ?_, ?_⟩
        · intro m hm
          rw [hm] at hpass
          simp only [passesOf] at hpass
          cases hl : alookup m (nodeId n) with
          | none => rw [hl] at hpass; simp at hpass
          | some b => rw [hl] at hpass; simp at hpass; rw [hpass]
        · intro g hg cg hcg
          rcases treePath_anc_decomp hpath hg with
            ⟨pre, suf, gid, gd, pad, nm, cs, hshape, hanc, hpre, hsuf⟩
          rw [updateVisibility_displayed_char s hnd hpre] at hcg
          cases hg0 : alookup s.columnComps (nodeId g) with
          | none => rw [hg0] at hcg; simp at hcg
          | some cg0 =>
              rw [hg0] at hcg
              simp only [Option.map_some'] at hcg
              have hcgeq : cg = setDisp cg0
                  (openOf s.columnComps true pre &&
                    passesOf (panelFilterResults s) (nodeId g)) := by
                injection hcg with h
                exact h.symm
              rw [hcgeq, setDisp_expanded]
              have := hall g hg
              rw [expandedIn_some hg0] at this
              exact this
        · intro g hg cg hcg
          rcases treePath_anc_decomp hpath hg with
            ⟨pre, suf, gid, gd, pad, nm, cs, hshape, hanc, hpre, hsuf⟩
          rw [updateVisibility_displayed_char s hnd hpre] at hcg
          cases hg0 : alookup s.columnComps (nodeId g) with
          | none => rw [hg0] at hcg; simp at hcg
          | some cg0 =>
              rw [hg0] at hcg
              simp only [Option.map_some'] at hcg
              have hcgeq : cg = setDisp cg0
                  (openOf s.columnComps true pre &&
                    passesOf (panelFilterResults s) (nodeId g)) := by
                injection hcg with h
                exact h.symm
              rw [hcgeq, setDisp_displayed, Bool.and_eq_true]
              constructor
              · unfold openOf
                rw [Bool.and_eq_true]
                refine ⟨rfl, ?_⟩
                rw [List.all_eq_true]
                intro g' hg'
                exact hall g' (by rw [hanc]; exact List.mem_append_left _ hg')
              · cases hfr : panelFilterResults s with
                | none => rfl
                | some m =>
                    rcases panelFilterResults_some hfr with ⟨ft, hft, hne, hm⟩
                    rw [hfr] at hpass
                    simp only [passesOf] at hpass
                    rw [hm, createFilterResults_pure s.columnComps s.columnTree ft hnd,
                      alookup_filterEntries hpath s.columnComps ft false hnd] at hpass
                    simp only [Option.getD_some] at hpass
                    have hanc_ne : anc ≠ [] := by
                      rw [hanc]
                      exact List.append_ne_nil_of_right_ne_nil _ (List.cons_ne_nil _ _)
                    rw [hpOf_ne_nil hanc_ne false] at hpass
                    have hprop := filterPass_propagate hsuf s.columnComps ft hpass
                    have hgpass : filterPassNode s.columnComps ft (hpOf false pre)
                        g = true := by
                      rw [hshape]
                      unfold filterPassNode
                      rw [hprop]
                      simp
                    simp only [passesOf]
                    rw [hm, createFilterResults_pure s.columnComps s.columnTree ft hnd,
                      alookup_filterEntries hpre s.columnComps ft false hnd, hgpass]
                    rfl
      · rintro ⟨hfpass, hexp, _⟩
        rw [Bool.and_eq_true]
        constructor
        · unfold openOf
          rw [Bool.and_eq_true]
          refine ⟨rfl, ?_⟩
          rw [List.all_eq_true]
          intro g hg
          cases hg0 : alookup s.columnComps (nodeId g) with
          | none => exact expandedIn_none hg0
          | some cg0 =>
              rw [expandedIn_some hg0]
              rcases treePath_anc_decomp hpath hg with
                ⟨pre, suf, gid, gd, pad, nm, cs, hshape, hanc, hpre, hsuf⟩
              have hcharg := updateVisibility_displayed_char s hnd hpre
              rw [hg0] at hcharg
              simp only [Option.map_some'] at hcharg
              have := hexp g hg _ hcharg
              rw [setDisp_expanded] at this
              exact this
        · cases hfr : panelFilterResults s with
          | none => rfl
          | some m =>
              have := hfpass m hfr
              simp only [passesOf]
              rw [this]
              rfl

/-- Witness for C1: the spec's three-level scenario.  Root group expanded,
subgroup collapsed: the leaf's display flag is false even though filtering
is disabled, exactly because the collapsed subgroup's expansion conjunct
fails. -/
theorem claim_C1_display_iff_witness :
    (treeIds demo1State.columnTree).Nodup ∧
    (({ isGroup := false, displayName := some "Leaf", isExpandable := false,
        expanded := false, displayed := false } : ColumnItem).displayed = true ↔
      ((∀ m, panelFilterResults demo1State = some m →
          alookup m (nodeId demo1Leaf) = some true) ∧
       (∀ g ∈ [demo1Root, demo1Sub], ∀ cg,
          alookup (updateVisibilityOfRows demo1State).columnComps (nodeId g) = some cg →
          cg.expanded = true) ∧
       (∀ g ∈ [demo1Root, demo1Sub], ∀ cg,
          alookup (updateVisibilityOfRows demo1State).columnComps (nodeId g) = some cg →
          cg.displayed = true))) := by
  constructor
  · decide
  · refine claim_C1_display_iff demo1State [demo1Root, demo1Sub] demo1Leaf _ (by decide) ?_ (by decide)
    exact TreePath.down (by simp [demo1State, demo1Root])
      (TreePath.down (by simp [demo1Root, demo1Sub]) (TreePath.top (by simp [demo1Sub, demo1Leaf])))

theorem countKey_onColumnsChanged (s : PanelState) (newTree : List ColNode)
    (groupsExist : Bool) (k : String) (hnd : (treeIds newTree).Nodup) :
    countKey (onColumnsChanged s newTree groupsExist).columnComps k =
      countKey (builtEntriesList s.expandGroupsByDefault newTree) k := by
  have hpure := recursivelyAddComps_pure s.expandGroupsByDefault groupsExist newTree hnd
  unfold onColumnsChanged updateVisibilityOfRows
  simp only []
  rw [recursivelySetVisibility_eq_applyWrites newTree _ _ true _ (eqMod_refl _)]
  rw [← eqMod_countKey (eqMod_applyWrites _ _) k]
  rw [hpure]

/-- C2 (counterexample): the claim as stated fails.  `demo2Col` is neither
suppressed nor a padding group and sits in the source tree, yet after a
rebuild the registry holds no entry for it, because its parent group's
definition is suppressed and the rebuild skips that whole subtree. -/
theorem claim_C2_counterexample :
    TreePath [demo2Group] [demo2Group] demo2Col ∧
    nodeSuppressed demo2Col = false ∧
    nodePadding demo2Col = false ∧
    countKey (onColumnsChanged demoEmptyState [demo2Group] true).columnComps
      (nodeId demo2Col) = 0 := by
  refine ⟨?_, by decide, by decide, by decide⟩
  exact TreePath.down (by simp [demo2Group]) (TreePath.top (by simp [demo2Group, demo2Col]))

/-- C2 (amended): after `rebuildFromColumnModel` (`onColumnsChanged`) with
pairwise-distinct node ids, the registry contains exactly one entry for
every node that is neither suppressed nor a padding group *and has no
suppressed ancestor group*, and no entry for suppressed nodes, padding
groups, or nodes below a suppressed group. -/
theorem claim_C2_registry_entries (s : PanelState) (newTree : List ColNode)
    (groupsExist : Bool) (anc : List ColNode) (n : ColNode)
    (hnd : (treeIds newTree).Nodup) (hpath : TreePath newTree anc n) :
    countKey (onColumnsChanged s newTree groupsExist).columnComps (nodeId n) =
      if nodeSuppressed n || nodePadding n || anc.any nodeSuppressed then 0 else 1 := by
  rw [countKey_onColumnsChanged s newTree groupsExist (nodeId n) hnd]
  exact countKey_builtEntries hpath s.expandGroupsByDefault hnd

/-- Witness for C2 (amended): an ordinary column under an ordinary group
gets exactly one registry entry. -/
theorem claim_C2_registry_entries_witness :
    countKey (onColumnsChanged demoEmptyState [demo2bGroup] true).columnComps
      (nodeId demo2bCol) = 1 := by
  have h := claim_C2_registry_entries demoEmptyState [demo2bGroup] true
    [demo2bGroup] demo2bCol (by decide)
    (TreePath.down (by simp [demo2bGroup]) (TreePath.top (by simp [demo2bGroup, demo2bCol])))
  simpa [demo2bCol, demo2bGroup, nodeSuppressed, nodePadding, defSuppressed] using h

/-- C9: a group whose column-group definition sets `suppressToolPanel`
produces no registry entry on rebuild, and neither does any of its
descendants — the whole subtree is skipped, including non-suppressed
descendants. -/
theorem claim_C9_suppressed_subtree (s : PanelState) (newTree : List ColNode)
    (groupsExist : Bool) (anc : List ColNode) (id : String)
    (gd : Option ColGroupDef) (pad : Bool) (nm : Option String)
    (cs : List ColNode)
    (hnd : (treeIds newTree).Nodup)
    (hpath : TreePath newTree anc (ColNode.group id gd pad nm cs))
    (hsup : groupDefSuppressed gd = true) :
    countKey (onColumnsChanged s newTree groupsExist).columnComps id = 0 ∧
    (∀ anc' : List ColNode, ∀ n : ColNode, TreePath cs anc' n →
      countKey (onColumnsChanged s newTree groupsExist).columnComps (nodeId n) = 0) := by
  constructor
  · rw [countKey_onColumnsChanged s newTree groupsExist id hnd]
    have h2 := countKey_builtEntries hpath s.expandGroupsByDefault hnd
    rw [show nodeId (ColNode.group id gd pad nm cs) = id from rfl] at h2
    rw [h2]
    simp [nodeSuppressed, hsup]
  · intro anc' n hpath'
    have hfull := treePath_append hpath hpath'
    rw [countKey_onColumnsChanged s newTree groupsExist (nodeId n) hnd]
    rw [countKey_builtEntries hfull s.expandGroupsByDefault hnd]
    have hany : (anc ++ ColNode.group id gd pad nm cs :: anc').any nodeSuppressed = true := by
      rw [List.any_append, List.any_cons]
      simp [nodeSuppressed, hsup]
    rw [hany]
    simp

/-- Witness for C9: the suppressed demo group and its (non-suppressed)
child both end up with zero registry entries after a rebuild. -/
theorem claim_C9_suppressed_subtree_witness :
    countKey (onColumnsChanged demoEmptyState [demo9Group] true).columnComps "sg9" = 0 ∧
    (∀ anc' : List ColNode, ∀ n : ColNode, TreePath [demo9Col] anc' n →
      countKey (onColumnsChanged demoEmptyState [demo9Group] true).columnComps (nodeId n) = 0) :=
  claim_C9_suppressed_subtree demoEmptyState [demo9Group] true [] "sg9"
    (some { suppressToolPanel := true }) false (some "SG9") [demo9Col]
    (by decide) (TreePath.top (by simp [demo9Group])) (by decide)

/-- C3 (counterexample): the claim's last clause is inverted.  `demo3Pad`
is a padding group with a real parent and no registry item; none of its
children passes the filter "rev"; the claim says it fails, but
`createFilterResults` records `true` for it (and, symmetrically, a padding
group with no parent would get `false`). -/
theorem claim_C3_counterexample :
    TreePath demo3Tree [demo3Group] demo3Pad ∧
    nodePadding demo3Pad = true ∧
    alookup demo3Reg (nodeId demo3Pad) = none ∧
    alookup (createFilterResults demo3Reg demo3Tree "rev") (nodeId demo3Col) = some false ∧
    alookup (createFilterResults demo3Reg demo3Tree "rev") (nodeId demo3Pad) = some true := by
  refine ⟨?_, by decide, by decide, by decide, by decide⟩
  exact TreePath.down (by simp [demo3Tree, demo3Group]) (TreePath.top (by simp [demo3Group]))

/-- C3 (amended): with pairwise-distinct ids, the filter map records for
every node its depth-first post-order result `filterPassNode`: a node
passes if some child passes; otherwise, an item with a displayable name
passes iff the lower-cased name contains the filter substring (an item
without a name passes); otherwise — no item exists — a padding group with
a real parent passes trivially, and a padding group with no parent fails.
(The original claim stated the opposite for the last two cases.) -/
theorem claim_C3_filter_rule (reg : Registry) (t : List ColNode) (ft : String)
    (anc : List ColNode) (n : ColNode)
    (hnd : (treeIds t).Nodup) (hpath : TreePath t anc n) :
    alookup (createFilterResults reg t ft) (nodeId n) =
      some (filterPassNode reg ft (hpOf false anc) n) := by
  rw [createFilterResults_pure reg t ft hnd]
  exact alookup_filterEntries hpath reg ft false hnd

/-- Witness for C3 (amended): the padding group of the demonstration tree
receives exactly its pure depth-first result (which evaluates to `true`). -/
theorem claim_C3_filter_rule_witness :
    alookup (createFilterResults demo3Reg demo3Tree "rev") (nodeId demo3Pad) =
      some (filterPassNode demo3Reg "rev" (hpOf false [demo3Group]) demo3Pad) :=
  claim_C3_filter_rule demo3Reg demo3Tree "rev" [demo3Group] demo3Pad (by decide)
    (TreePath.down (by simp [demo3Tree, demo3Group]) (TreePath.top (by simp [demo3Group])))

theorem forall2_map {α : Type} (l : List α) (f : α → α) (R : α → α → Prop)
    (h : ∀ a ∈ l, R a (f a)) : List.Forall₂ R l (l.map f) := by
  induction l with
  | nil => exact List.Forall₂.nil
  | cons a l ih =>
      exact List.Forall₂.cons (h a (List.mem_cons_self a l))
        (ih (fun b hb => h b (List.mem_cons_of_mem a hb)))

theorem map_id_of {α : Type} (l : List α) (f : α → α)
    (h : ∀ a ∈ l, f a = a) : l.map f = l := by
  induction l with
  | nil => rfl
  | cons a l ih =>
      simp only [List.map, h a (List.mem_cons_self a l)]
      rw [ih (fun b hb => h b (List.mem_cons_of_mem a hb))]

/-- C4: `setGroupsExpanded(expand, groupIds)`.  With `groupIds` omitted,
every expandable item's expansion flag is set and nothing else changes;
with `groupIds` given, expansion is set exactly for expandable items whose
id is listed, all other entries (and all keys) are untouched, every
requested id with no matching expandable item is reported in the non-fatal
warning payload, and when nothing matches the registry is returned
unchanged.  The operation is a total function, so no exception can
propagate. -/
theorem claim_C4_setGroupsExpanded (reg : Registry) (expand : Bool)
    (gids : List String) :
    List.Forall₂ (fun e e' : String × ColumnItem =>
        e'.1 = e.1 ∧
        (e.2.isExpandable = true → e'.2 = { e.2 with expanded := expand }) ∧
        (e.2.isExpandable = false → e'.2 = e.2))
      reg (setGroupsExpanded reg expand none).1 ∧
    (setGroupsExpanded reg expand none).2 = [] ∧
    List.Forall₂ (fun e e' : String × ColumnItem =>
        e'.1 = e.1 ∧
        (e.2.isExpandable = true ∧ e.1 ∈ gids → e'.2 = { e.2 with expanded := expand }) ∧
        (¬(e.2.isExpandable = true ∧ e.1 ∈ gids) → e'.2 = e.2))
      reg (setGroupsExpanded reg expand (some gids)).1 ∧
    (∀ gid ∈ gids,
      (gid ∈ (setGroupsExpanded reg expand (some gids)).2 ↔
        ¬ ∃ e ∈ reg, e.1 = gid ∧ e.2.isExpandable = true)) ∧
    ((∀ e ∈ reg, ¬(e.2.isExpandable = true ∧ e.1 ∈ gids)) →
      (setGroupsExpanded reg expand (some gids)).1 = reg) := by
  have hcond : ∀ e : String × ColumnItem,
      ((e.2.isExpandable && gids.contains e.1) = true) ↔
        (e.2.isExpandable = true ∧ e.1 ∈ gids) := by
    intro e
    rw [Bool.and_eq_true]
    exact and_congr Iff.rfl List.elem_iff
  refine ⟨?_, rfl, ?_, ?_, ?_⟩
  · unfold setGroupsExpanded doSetExpandedAll
    refine forall2_map reg _ _ ?_
    intro e _
    by_cases hexp : e.2.isExpandable = true
    · rw [if_pos hexp]
      exact ⟨rfl, fun _ => rfl, fun hfalse => absurd hexp (by simp [hfalse])⟩
    · rw [if_neg hexp]
      exact ⟨rfl, fun htrue => absurd htrue hexp, fun _ => rfl⟩
  · unfold setGroupsExpanded
    simp only []
    refine forall2_map reg _ _ ?_
    intro e _
    by_cases hc : (e.2.isExpandable && gids.contains e.1) = true
    · rw [if_pos hc]
      exact ⟨rfl, fun _ => rfl, fun hn => absurd ((hcond e).mp hc) hn⟩
    · rw [if_neg hc]
      exact ⟨rfl, fun hp => absurd ((hcond e).mpr hp) hc, fun _ => rfl⟩
  · intro gid hgid
    unfold setGroupsExpanded
    simp only []
    rw [List.mem_filter]
    constructor
    · rintro ⟨-, hp⟩ hex
      rcases hex with ⟨e, he, hkey, hexp⟩
      rw [Bool.not_eq_true', Bool.eq_false_iff] at hp
      apply hp
      rw [List.elem_iff, List.mem_filterMap]
      refine ⟨e, he, ?_⟩
      rw [if_pos ((hcond e).mpr ⟨hexp, by rw [hkey]; exact hgid⟩), hkey]
    · intro hnone
      refine ⟨hgid, ?_⟩
      rw [Bool.not_eq_true', Bool.eq_false_iff]
      intro hin
      rw [List.elem_iff, List.mem_filterMap] at hin
      rcases hin with ⟨e, he, hf⟩
      by_cases hc : (e.2.isExpandable && gids.contains e.1) = true
      · rw [if_pos hc] at hf
        injection hf with hf
        exact hnone ⟨e, he, hf, ((hcond e).mp hc).1⟩
      · rw [if_neg hc] at hf
        exact Option.noConfusion hf
  · intro hnone
    unfold setGroupsExpanded
    simp only []
    refine map_id_of reg _ ?_
    intro e he
    have hc : ¬ (e.2.isExpandable && gids.contains e.1) = true :=
      fun hc => hnone e he ((hcond e).mp hc)
    rw [if_neg hc]

/-- Witness-style instance for C4 (its statement has no top-level
hypotheses, but the scenario from the spec is worth pinning down): a
registry holding only a non-expandable item, asked to expand "unknownId",
reports the id in the warning payload and leaves the registry unchanged. -/
theorem claim_C4_setGroupsExpanded_witness :
    ("unknownId" ∈
        (setGroupsExpanded [("a", mkColumnComp (some "A"))] true (some ["unknownId"])).2 ↔
      ¬ ∃ e ∈ [("a", mkColumnComp (some "A"))], e.1 = "unknownId" ∧ e.2.isExpandable = true) ∧
    ((∀ e ∈ [("a", mkColumnComp (some "A"))],
        ¬(e.2.isExpandable = true ∧ e.1 ∈ ["unknownId"])) →
      (setGroupsExpanded [("a", mkColumnComp (some "A"))] true (some ["unknownId"])).1 =
        [("a", mkColumnComp (some "A"))]) :=
  ⟨(claim_C4_setGroupsExpanded [("a", mkColumnComp (some "A"))] true ["unknownId"]).2.2.2.1
      "unknownId" (by simp),
   (claim_C4_setGroupsExpanded [("a", mkColumnComp (some "A"))] true ["unknownId"]).2.2.2.2⟩

/-- C5: `doSetSelectedAll(checked)`.  With pivot mode active, every
registered item — and nothing else — receives an individual
`onSelectAllChanged` notification and no bulk visibility call is made; with
pivot mode inactive, the effects are exactly one bulk
`setColumnsVisible(primaryCols, checked)` call and no per-item
notifications. -/
theorem claim_C5_doSetSelectedAll (reg : Registry) (primaryCols : List String)
    (checked : Bool) :
    ((∀ e ∈ reg,
        SelectAction.itemNotify e.1 checked ∈ doSetSelectedAll reg true primaryCols checked) ∧
     (doSetSelectedAll reg true primaryCols checked).length = reg.length ∧
     (∀ cols b, SelectAction.bulkSetVisible cols b ∉ doSetSelectedAll reg true primaryCols checked)) ∧
    (doSetSelectedAll reg false primaryCols checked =
        [SelectAction.bulkSetVisible primaryCols checked] ∧
     (∀ i b, SelectAction.itemNotify i b ∉ doSetSelectedAll reg false primaryCols checked)) := by
  refine ⟨⟨?_, ?_, ?_⟩, rfl, ?_⟩
  · intro e he
    show SelectAction.itemNotify e.1 checked ∈
      reg.map (fun e => SelectAction.itemNotify e.1 checked)
    exact List.mem_map_of_mem _ he
  · show (reg.map (fun e => SelectAction.itemNotify e.1 checked)).length = reg.length
    exact List.length_map reg _
  · intro cols b hmem
    have hmem' : SelectAction.bulkSetVisible cols b ∈
        reg.map (fun e => SelectAction.itemNotify e.1 checked) := hmem
    rcases List.mem_map.mp hmem' with ⟨e, _, heq⟩
    exact SelectAction.noConfusion heq
  · intro i b hmem
    have hmem' : SelectAction.itemNotify i b ∈
        [SelectAction.bulkSetVisible primaryCols checked] := hmem
    rcases List.mem_singleton.mp hmem' with heq
    exact SelectAction.noConfusion heq

/-- C6: the state emitted with the `groupExpanded` event after a group
expansion change is classified from the full-tree counting walk on the
recomputed panel: mixed (`INDETERMINATE`) iff at least one counted group is
expanded and at least one is collapsed; all-collapsed (`UNCHECKED`) iff at
least one is collapsed and none expanded; all-expanded (`CHECKED`)
otherwise, i.e. exactly when no counted group is collapsed. -/
theorem claim_C6_expanded_event_state (s : PanelState) :
    ((onGroupExpanded s).2 = SELECTED_STATE.INDETERMINATE ↔
      (0 < (countExpanded (onGroupExpanded s).1.columnComps
              (onGroupExpanded s).1.columnTree (0, 0)).1 ∧
       0 < (countExpanded (onGroupExpanded s).1.columnComps
              (onGroupExpanded s).1.columnTree (0, 0)).2)) ∧
    ((onGroupExpanded s).2 = SELECTED_STATE.UNCHECKED ↔
      (0 < (countExpanded (onGroupExpanded s).1.columnComps
              (onGroupExpanded s).1.columnTree (0, 0)).2 ∧
       (countExpanded (onGroupExpanded s).1.columnComps
              (onGroupExpanded s).1.columnTree (0, 0)).1 = 0)) ∧
    ((onGroupExpanded s).2 = SELECTED_STATE.CHECKED ↔
      (countExpanded (onGroupExpanded s).1.columnComps
              (onGroupExpanded s).1.columnTree (0, 0)).2 = 0) := by
  unfold onGroupExpanded fireExpandedEvent
  simp only []
  set c := countExpanded (updateVisibilityOfRows s).columnComps
    (updateVisibilityOfRows s).columnTree (0, 0) with hc
  split_ifs with hA hB
  · refine ⟨⟨fun _ => hA, fun _ => rfl⟩, ?_, ?_⟩
    · constructor
      · intro h
        exact h.elim
      · rintro ⟨-, he0⟩
        have := hA.1
        omega
    · constructor
      · intro h
        exact h.elim
      · intro hne0
        have := hA.2
        omega
  · have he0 : c.1 = 0 := by
      rcases Nat.eq_zero_or_pos c.1 with h | h
      · exact h
      · exact absurd ⟨h, hB⟩ hA
    refine ⟨?_, ⟨fun _ => ⟨hB, he0⟩, fun _ => rfl⟩, ?_⟩
    · constructor
      · intro h
        exact h.elim
      · rintro ⟨h1, -⟩
        omega
    · constructor
      · intro h
        exact h.elim
      · intro hne0
        omega
  · have hne0 : c.2 = 0 := by omega
    refine ⟨?_, ?_, ⟨fun _ => hne0, fun _ => rfl⟩⟩
    · constructor
      · intro h
        exact h.elim
      · rintro ⟨-, h2⟩
        omega
    · constructor
      · intro h
        exact h.elim
      · rintro ⟨h2, -⟩
        omega

/-- C7: a full rebuild (`onColumnsChanged`) preserves the stored filter
text and the "expand by default" flag, while every newly built group item's
expansion flag is reset to that configured default, which `init` derives as
the inverse of the `contractColumnSelection` option. -/
theorem claim_C7_rebuild_state (s : PanelState) (newTree : List ColNode)
    (groupsExist : Bool) (params : ToolPanelColumnCompParams) (ready : Bool)
    (tree₀ : List ColNode) (ge₀ : Bool) :
    (onColumnsChanged s newTree groupsExist).filterText = s.filterText ∧
    (onColumnsChanged s newTree groupsExist).expandGroupsByDefault =
      s.expandGroupsByDefault ∧
    (∀ k : String, ∀ c : ColumnItem,
      (k, c) ∈ (onColumnsChanged s newTree groupsExist).columnComps →
      c.isGroup = true → c.expanded = s.expandGroupsByDefault) ∧
    (init params ready tree₀ ge₀).expandGroupsByDefault =
      !params.contractColumnSelection := by
  refine ⟨rfl, rfl, ?_, ?_⟩
  · intro k c hmem hg
    have hb : ∀ e ∈ recursivelyAddComps s.expandGroupsByDefault [] 0 groupsExist newTree,
        e.2.isGroup = true → e.2.expanded = s.expandGroupsByDefault := by
      have haux : ∀ t : List ColNode, ∀ reg : Registry, ∀ dept : Nat,
          (∀ e ∈ reg, e.2.isGroup = true → e.2.expanded = s.expandGroupsByDefault) →
          ∀ e ∈ recursivelyAddComps s.expandGroupsByDefault reg dept groupsExist t,
            e.2.isGroup = true → e.2.expanded = s.expandGroupsByDefault := by
        intro t
        induction t with
        | nil => intro reg dept hreg e he; exact hreg e he
        | cons m ms ih =>
            intro reg dept hreg e he
            unfold recursivelyAddComps at he
            exact ih (addComp s.expandGroupsByDefault reg dept groupsExist m) dept
              (addComp_expanded_default s.expandGroupsByDefault groupsExist m reg dept hreg)
              e he
      exact haux newTree [] 0 (by intro e he; simp at he)
    have hEq : eqMod (recursivelyAddComps s.expandGroupsByDefault [] 0 groupsExist newTree)
        (onColumnsChanged s newTree groupsExist).columnComps := by
      unfold onColumnsChanged updateVisibilityOfRows
      simp only []
      rw [recursivelySetVisibility_eq_applyWrites newTree _ _ true _ (eqMod_refl _)]
      exact eqMod_applyWrites _ _
    rcases eqMod_mem hEq hmem with ⟨e', he', hstrip⟩
    rcases entryStrip_fields hstrip with ⟨-, hgroup, hexpanded, -, -⟩
    rw [← hexpanded]
    exact hb e' he' (by rw [hgroup]; exact hg)
  · cases ready <;> rfl

theorem updateVisibilityOfRows_idem (p : PanelState) :
    updateVisibilityOfRows (updateVisibilityOfRows p) = updateVisibilityOfRows p := by
  have hEq : eqMod p.columnComps (updateVisibilityOfRows p).columnComps := by
    unfold updateVisibilityOfRows
    simp only []
    rw [recursivelySetVisibility_eq_applyWrites p.columnTree _ _ true _ (eqMod_refl _)]
    exact eqMod_applyWrites _ _
  have hfr : panelFilterResults (updateVisibilityOfRows p) = panelFilterResults p := by
    unfold panelFilterResults
    have hft : (updateVisibilityOfRows p).filterText = p.filterText := rfl
    rw [hft]
    cases hftv : p.filterText with
    | none => rfl
    | some ftv =>
        show (if ftv ≠ "" then
            some (createFilterResults (updateVisibilityOfRows p).columnComps
              (updateVisibilityOfRows p).columnTree ftv)
          else none) =
          (if ftv ≠ "" then some (createFilterResults p.columnComps p.columnTree ftv)
           else none)
        by_cases hne : ftv ≠ ""
        · rw [if_pos hne, if_pos hne]
          have htree : (updateVisibilityOfRows p).columnTree = p.columnTree := rfl
          rw [htree, eqMod_createFilterResults hEq.symm p.columnTree ftv]
        · rw [if_neg hne, if_neg hne]
  have h1 : (updateVisibilityOfRows p).columnComps =
      applyWrites p.columnComps
        (visWritesList p.columnComps (panelFilterResults p) true p.columnTree) := by
    unfold updateVisibilityOfRows
    simp only []
    exact recursivelySetVisibility_eq_applyWrites p.columnTree _ _ true _ (eqMod_refl _)
  have hcomps : recursivelySetVisibility (updateVisibilityOfRows p).columnComps true
      (panelFilterResults (updateVisibilityOfRows p))
      (updateVisibilityOfRows p).columnTree =
      (updateVisibilityOfRows p).columnComps := by
    rw [hfr]
    have htree : (updateVisibilityOfRows p).columnTree = p.columnTree := rfl
    rw [htree]
    rw [recursivelySetVisibility_eq_applyWrites p.columnTree p.columnComps _ true _ hEq]
    rw [h1, applyWrites_idem]
  exact panelState_eta_comps (updateVisibilityOfRows p) _ hcomps

/-- C8: `setFilterText` is idempotent — calling it twice with the same
value yields exactly the same panel state (in particular the same
display-flag assignment over all registered items) as calling it once. -/
theorem claim_C8_setFilterText_idempotent (s : PanelState) (ft : Option String) :
    setFilterText (setFilterText s ft) ft = setFilterText s ft := by
  unfold setFilterText
  rw [panelState_eta_filterText
    (updateVisibilityOfRows
      { s with filterText := if jsExists ft then ft.map jsToLower else none })
    (if jsExists ft then ft.map jsToLower else none) rfl]
  exact updateVisibilityOfRows_idem _

/-- C10: when the counting walk finds zero expanded and zero collapsed
group items (for example in a tree with no group items at all), the
emitted state is all-expanded (`CHECKED`), never all-collapsed or mixed. -/
theorem claim_C10_zero_counts_all_expanded (reg : Registry) (t : List ColNode)
    (h : countExpanded reg t (0, 0) = (0, 0)) :
    fireExpandedEvent reg t = SELECTED_STATE.CHECKED := by
  unfold fireExpandedEvent
  simp only []
  rw [h]
  simp

/-- Witness for C10: a tree holding only plain columns counts no groups at
all and reports all-expanded. -/
theorem claim_C10_zero_counts_all_expanded_witness :
    countExpanded [] [ColNode.col "a" none (some "A")] (0, 0) = (0, 0) ∧
    fireExpandedEvent [] [ColNode.col "a" none (some "A")] = SELECTED_STATE.CHECKED :=
  ⟨rfl, claim_C10_zero_counts_all_expanded [] [ColNode.col "a" none (some "A")] rfl⟩
